import Mathlib

/-!
Shallow embedding of `zeroconf.py` (Multicast DNS Service Discovery for
Python, v0.14-wmcbrine lineage, version 0.16.0): the DNS wire codec
(`DNSOutgoing` / `DNSIncoming`), the record model with its equality rules,
the record cache, the TXT properties codec of `ServiceInfo`, and the
registration-time uniqueness check, together with theorems settling the
specification claims about them.

Modelling conventions:
* Python `str` values are lists of Unicode code points (`PyStr`); `bytes`
  values are lists of byte values (`PyBytes`).  `str.encode('utf-8')` and
  UTF-8 decoding with replacement (`six.text_type(b, 'utf-8', 'replace')`)
  are modelled as explicit executable functions.  `str.lower()` is modelled
  on the ASCII range (DNS names are compared case-insensitively over ASCII).
* Millisecond timestamps (`current_time_millis`, `DNSRecord.created`) and
  TTLs are rationals, mirroring Python floats; `int(x)` is truncation
  toward zero (`pyTrunc`).
* Fallible operations (`struct.pack` range errors, `six.int2byte` range
  errors, missing attributes, `indexbytes` out of range, malformed domain
  names) return `Except PyErr`.
-/

/-- Python `bytes`: a list of byte values. -/
abbrev PyBytes := List Nat

/-- Python `str`: a list of Unicode code points. -/
abbrev PyStr := List Nat

/-- A Unicode scalar value (encodable to UTF-8 by Python's codec). -/
def ValidScalar (c : Nat) : Prop := c < 0xD800 ∨ (0xE000 ≤ c ∧ c < 0x110000)

instance (c : Nat) : Decidable (ValidScalar c) := by
  unfold ValidScalar; infer_instance

/-- Model of UTF-8 encoding of a single code point. -/
def utf8EncodeChar (c : Nat) : PyBytes :=
  if c < 0x80 then [c]
  else if c < 0x800 then [0xC0 + c / 64, 0x80 + c % 64]
  else if c < 0x10000 then [0xE0 + c / 4096, 0x80 + c / 64 % 64, 0x80 + c % 64]
  else [0xF0 + c / 262144, 0x80 + c / 4096 % 64, 0x80 + c / 64 % 64, 0x80 + c % 64]

/-- Model of `s.encode('utf-8')`. -/
def utf8Encode (s : PyStr) : PyBytes := s.flatMap utf8EncodeChar

/-- One step of UTF-8 decoding with `errors='replace'`: given the lead byte
and the remaining bytes, return the decoded code point and how many bytes
of the remainder belong to this sequence (a malformed sequence yields
U+FFFD for the lead byte only, resynchronising at the next byte). -/
def utf8DecodeStep (b : Nat) (rest : PyBytes) : Nat × Nat :=
  if b < 0x80 then (b, 0)
  else if b < 0xC0 then (0xFFFD, 0)
  else if b < 0xE0 then
    match rest with
    | b1 :: _ =>
      if 0x80 ≤ b1 ∧ b1 < 0xC0 then ((b - 0xC0) * 64 + (b1 - 0x80), 1)
      else (0xFFFD, 0)
    | [] => (0xFFFD, 0)
  else if b < 0xF0 then
    match rest with
    | b1 :: b2 :: _ =>
      if (0x80 ≤ b1 ∧ b1 < 0xC0) ∧ (0x80 ≤ b2 ∧ b2 < 0xC0) then
        ((b - 0xE0) * 4096 + (b1 - 0x80) * 64 + (b2 - 0x80), 2)
      else (0xFFFD, 0)
    | _ => (0xFFFD, 0)
  else if b < 0xF8 then
    match rest with
    | b1 :: b2 :: b3 :: _ =>
      if (0x80 ≤ b1 ∧ b1 < 0xC0) ∧ (0x80 ≤ b2 ∧ b2 < 0xC0) ∧
          (0x80 ≤ b3 ∧ b3 < 0xC0) then
        ((b - 0xF0) * 262144 + (b1 - 0x80) * 4096 + (b2 - 0x80) * 64 +
          (b3 - 0x80), 3)
      else (0xFFFD, 0)
    | _ => (0xFFFD, 0)
  else (0xFFFD, 0)

/-- Fuel-driven decoding loop; one unit of fuel is spent per decoded code
point, so any fuel of at least the byte length of the input suffices. -/
def utf8DecodeAux : Nat → PyBytes → PyStr
  | _, [] => []
  | 0, _ :: _ => []
  | fuel + 1, b :: rest =>
    let p := utf8DecodeStep b rest
    p.1 :: utf8DecodeAux fuel (rest.drop p.2)

/-- Model of UTF-8 decoding with `errors='replace'`
(`six.text_type(b, 'utf-8', 'replace')`). -/
def utf8Decode (s : PyBytes) : PyStr := utf8DecodeAux s.length s

theorem utf8EncodeChar_ne_nil (c : Nat) : utf8EncodeChar c ≠ [] := by
  unfold utf8EncodeChar
  split
  · simp
  split
  · simp
  split
  · simp
  · simp

theorem utf8DecodeAux_encodeChar (c : Nat) (h : ValidScalar c) (r : PyBytes)
    (fuel : Nat) :
    utf8DecodeAux (fuel + 1) (utf8EncodeChar c ++ r) = c :: utf8DecodeAux fuel r := by
  have hc : c < 0x110000 := by
    rcases h with h | h
    · omega
    · omega
  by_cases h1 : c < 0x80
  · simp only [utf8EncodeChar, if_pos h1, List.cons_append, List.nil_append,
      utf8DecodeAux, utf8DecodeStep, List.drop_zero]
  · by_cases h2 : c < 0x800
    · simp only [utf8EncodeChar, if_neg h1, if_pos h2, List.cons_append,
        List.nil_append, utf8DecodeAux, utf8DecodeStep]
      have hb : ¬ (0xC0 + c / 64 < 0x80) := by omega
      have hb2 : ¬ (0xC0 + c / 64 < 0xC0) := by omega
      have hb3 : 0xC0 + c / 64 < 0xE0 := by omega
      have hcont : 0x80 ≤ 0x80 + c % 64 ∧ 0x80 + c % 64 < 0xC0 := by omega
      simp only [if_neg hb, if_neg hb2, if_pos hb3, if_pos hcont]
      have hv : (0xC0 + c / 64 - 0xC0) * 64 + (0x80 + c % 64 - 0x80) = c := by omega
      simp only [hv, List.drop_succ_cons, List.drop_zero]
    · by_cases h3 : c < 0x10000
      · simp only [utf8EncodeChar, if_neg h1, if_neg h2, if_pos h3,
          List.cons_append, List.nil_append, utf8DecodeAux, utf8DecodeStep]
        have hb : ¬ (0xE0 + c / 4096 < 0x80) := by omega
        have hb2 : ¬ (0xE0 + c / 4096 < 0xC0) := by omega
        have hb3 : ¬ (0xE0 + c / 4096 < 0xE0) := by omega
        have hb4 : 0xE0 + c / 4096 < 0xF0 := by omega
        have hcont : (0x80 ≤ 0x80 + c / 64 % 64 ∧ 0x80 + c / 64 % 64 < 0xC0) ∧
            (0x80 ≤ 0x80 + c % 64 ∧ 0x80 + c % 64 < 0xC0) := by omega
        simp only [if_neg hb, if_neg hb2, if_neg hb3, if_pos hb4, if_pos hcont]
        have hv : (0xE0 + c / 4096 - 0xE0) * 4096 + (0x80 + c / 64 % 64 - 0x80) * 64 +
            (0x80 + c % 64 - 0x80) = c := by omega
        simp only [hv, List.drop_succ_cons, List.drop_zero]
      · simp only [utf8EncodeChar, if_neg h1, if_neg h2, if_neg h3,
          List.cons_append, List.nil_append, utf8DecodeAux, utf8DecodeStep]
        have hb : ¬ (0xF0 + c / 262144 < 0x80) := by omega
        have hb2 : ¬ (0xF0 + c / 262144 < 0xC0) := by omega
        have hb3 : ¬ (0xF0 + c / 262144 < 0xE0) := by omega
        have hb4 : ¬ (0xF0 + c / 262144 < 0xF0) := by omega
        have hb5 : 0xF0 + c / 262144 < 0xF8 := by omega
        have hcont : (0x80 ≤ 0x80 + c / 4096 % 64 ∧ 0x80 + c / 4096 % 64 < 0xC0) ∧
            (0x80 ≤ 0x80 + c / 64 % 64 ∧ 0x80 + c / 64 % 64 < 0xC0) ∧
            (0x80 ≤ 0x80 + c % 64 ∧ 0x80 + c % 64 < 0xC0) := by omega
        simp only [if_neg hb, if_neg hb2, if_neg hb3, if_neg hb4, if_pos hb5,
          if_pos hcont]
        have hv : (0xF0 + c / 262144 - 0xF0) * 262144 +
            (0x80 + c / 4096 % 64 - 0x80) * 4096 +
            (0x80 + c / 64 % 64 - 0x80) * 64 + (0x80 + c % 64 - 0x80) = c := by
          omega
        simp only [hv, List.drop_succ_cons, List.drop_zero]

theorem utf8DecodeAux_encode (s : PyStr) (h : ∀ c ∈ s, ValidScalar c)
    (r : PyBytes) (fuel : Nat) (hf : s.length ≤ fuel) :
    utf8DecodeAux fuel (utf8Encode s ++ r) = s ++ utf8DecodeAux (fuel - s.length) r := by
  induction s generalizing fuel with
  | nil => simp [utf8Encode]
  | cons c cs ih =>
    cases fuel with
    | zero => simp at hf
    | succ f =>
      have hc : ValidScalar c := h c (List.mem_cons_self c cs)
      have hcs : ∀ x ∈ cs, ValidScalar x := fun x hx =>
        h x (List.mem_cons_of_mem c hx)
      have he : utf8Encode (c :: cs) ++ r = utf8EncodeChar c ++ (utf8Encode cs ++ r) := by
        simp [utf8Encode]
      rw [he, utf8DecodeAux_encodeChar c hc, ih hcs f (by simpa using hf)]
      have : f + 1 - (c :: cs).length = f - cs.length := by simp
      rw [this, List.cons_append]

theorem utf8Encode_length_ge (s : PyStr) : s.length ≤ (utf8Encode s).length := by
  induction s with
  | nil => simp [utf8Encode]
  | cons c cs ih =>
    have h1 : utf8Encode (c :: cs) = utf8EncodeChar c ++ utf8Encode cs := by
      simp [utf8Encode]
    have h2 : 1 ≤ (utf8EncodeChar c).length := by
      cases he : utf8EncodeChar c with
      | nil => exact absurd he (utf8EncodeChar_ne_nil c)
      | cons _ _ => simp
    rw [h1]
    simp only [List.length_append, List.length_cons]
    omega

theorem utf8DecodeAux_nil (fuel : Nat) : utf8DecodeAux fuel [] = [] := by
  cases fuel <;> rfl

/-- A string of valid scalars decodes back from its UTF-8 encoding. -/
theorem utf8Decode_encode (s : PyStr) (h : ∀ c ∈ s, ValidScalar c) :
    utf8Decode (utf8Encode s) = s := by
  have h1 := utf8DecodeAux_encode s h [] (utf8Encode s).length
    (utf8Encode_length_ge s)
  rw [List.append_nil, utf8DecodeAux_nil] at h1
  rw [utf8Decode, h1, List.append_nil]

/-- Model of `str.lower()` on the ASCII range. -/
def pyLower (s : PyStr) : PyStr :=
  s.map fun c => if 0x41 ≤ c ∧ c ≤ 0x5A then c + 0x20 else c

/-- Model of Python `str.split(sep)` for a one-character separator:
splits at every occurrence, keeping empty parts. -/
def pySplit (s : PyStr) (sep : Nat) : List PyStr :=
  match s with
  | [] => [[]]
  | c :: rest =>
    if c = sep then [] :: pySplit rest sep
    else
      match pySplit rest sep with
      | h :: t => (c :: h) :: t
      | [] => [[c]]

theorem pySplit_ne_nil (s : PyStr) (sep : Nat) : pySplit s sep ≠ [] := by
  induction s with
  | nil => simp [pySplit]
  | cons c rest ih =>
    rw [pySplit]
    split
    · simp
    · split
      · simp
      · simp

/-- The dotted name denoted by a list of labels: every label is followed
by one `'.'` (code point `0x2E`), matching what `DNSIncoming.read_name`
assembles. -/
def joinName (labels : List PyStr) : PyStr :=
  labels.flatMap fun l => l ++ [0x2E]

theorem pySplit_no_sep_append (l : PyStr) (sep : Nat) (hl : sep ∉ l) (r : PyStr) :
    pySplit (l ++ sep :: r) sep = l :: pySplit r sep := by
  induction l with
  | nil => simp [pySplit]
  | cons c cs ih =>
    have hc : c ≠ sep := by
      intro he; exact hl (he ▸ List.mem_cons_self c cs)
    have hcs : sep ∉ cs := fun hx => hl (List.mem_cons_of_mem c hx)
    rw [List.cons_append, pySplit, if_neg hc, ih hcs]

/-- Splitting a canonical dotted name recovers the labels plus one final
empty part. -/
theorem pySplit_joinName (labels : List PyStr) (hl : ∀ l ∈ labels, 0x2E ∉ l) :
    pySplit (joinName labels) 0x2E = labels ++ [[]] := by
  induction labels with
  | nil => simp [joinName, pySplit]
  | cons l ls ih =>
    have h1 : 0x2E ∉ l := hl l (List.mem_cons_self l ls)
    have h2 : ∀ x ∈ ls, 0x2E ∉ x := fun x hx => hl x (List.mem_cons_of_mem l hx)
    have hj : joinName (l :: ls) = l ++ 0x2E :: joinName ls := by
      simp [joinName]
    rw [hj, pySplit_no_sep_append l 0x2E h1, ih h2, List.cons_append]

/-- Errors raised by the embedded Python code. -/
inductive PyErr where
  | namePartTooLong
  | nonUniqueName
  | attributeError
  | structError
  | indexError
  | badDomainName (off : Nat)
  | badDomainNameCircular (off : Nat)
  deriving DecidableEq

/-- Model of Python `int(x)` on a float: truncation toward zero. -/
def pyTrunc (q : ℚ) : Int :=
  if q < 0 then -Rat.floor (-q) else Rat.floor q

/-- Record/question type constants (`_TYPE_A` and friends). -/
def TYPE_A : Nat := 1

def TYPE_CNAME : Nat := 5

def TYPE_PTR : Nat := 12

def TYPE_HINFO : Nat := 13

def TYPE_TXT : Nat := 16

def TYPE_AAAA : Nat := 28

def TYPE_SRV : Nat := 33

def TYPE_ANY : Nat := 255

/-- Class constants (`_CLASS_IN`, `_CLASS_MASK`, `_CLASS_UNIQUE`). -/
def CLASS_IN : Nat := 1

def CLASS_MASK : Nat := 0x7FFF

def CLASS_UNIQUE : Nat := 0x8000

/-- A question entry (`DNSQuestion`; the `DNSEntry` fields, no extras). -/
structure DNSQuestion where
  key : PyStr
  name : PyStr
  type : Nat
  class_ : Nat
  unique : Bool
  deriving DecidableEq

/-- `DNSEntry.__init__` as used by `DNSQuestion`: the key is the lowercased
name, the class is stored masked, and the top class bit is the unique flag. -/
def mkQuestion (name : PyStr) (type class_ : Nat) : DNSQuestion :=
  { key := pyLower name, name := name, type := type,
    class_ := class_ &&& CLASS_MASK,
    unique := class_ &&& CLASS_UNIQUE != 0 }

/-- Payload of a record: one variant per concrete `DNSRecord` subclass. -/
inductive RData where
  | address (address : PyBytes)
  | hinfo (cpu os : PyBytes)
  | pointer (alias_ : PyStr)
  | text (text : PyBytes)
  | service (priority weight port : Nat) (server : PyStr)
  deriving DecidableEq

/-- A record (`DNSRecord` subclasses): the `DNSEntry` header plus ttl,
creation time in milliseconds, and the subclass payload. -/
structure DNSRecord where
  key : PyStr
  name : PyStr
  type : Nat
  class_ : Nat
  unique : Bool
  ttl : ℚ
  created : ℚ
  rdata : RData
  deriving DecidableEq

/-- `DNSRecord.__init__` (via `DNSEntry.__init__`), with the ambient
`current_time_millis()` passed explicitly as `now`. -/
def mkRecord (name : PyStr) (type class_ : Nat) (ttl : ℚ) (now : ℚ)
    (rdata : RData) : DNSRecord :=
  { key := pyLower name, name := name, type := type,
    class_ := class_ &&& CLASS_MASK,
    unique := class_ &&& CLASS_UNIQUE != 0,
    ttl := ttl, created := now, rdata := rdata }

/-- `DNSQuestion` equality: Python dispatches `q1 == q2` to the inherited
`DNSEntry.__eq__`, comparing name, type and class. -/
def questionEq (a b : DNSQuestion) : Bool :=
  a.name == b.name && a.type == b.type && a.class_ == b.class_

/-- Python `a == b` for two record objects.  Each concrete subclass
overrides `__eq__` (`DNSAddress.__eq__`, `DNSHinfo.__eq__`,
`DNSPointer.__eq__`, `DNSText.__eq__`, `DNSService.__eq__`), testing
`isinstance` of the same subclass and comparing only its payload fields. -/
def recordEq (a b : DNSRecord) : Bool :=
  match a.rdata, b.rdata with
  | .address x, .address y => x == y
  | .hinfo c1 o1, .hinfo c2 o2 => c1 == c2 && o1 == o2
  | .pointer x, .pointer y => x == y
  | .text x, .text y => x == y
  | .service p1 w1 t1 s1, .service p2 w2 t2 s2 =>
      p1 == p2 && w1 == w2 && t1 == t2 && s1 == s2
  | _, _ => false

/-- `DNSRecord.get_expiration_time`. -/
def getExpirationTime (r : DNSRecord) (percent : ℚ) : ℚ :=
  r.created + percent * r.ttl * 10

/-- `DNSRecord.get_remaining_ttl` (seconds). -/
def getRemainingTTL (r : DNSRecord) (now : ℚ) : ℚ :=
  max 0 ((getExpirationTime r 100 - now) / 1000)

/-- `DNSRecord.is_expired`. -/
def isExpired (r : DNSRecord) (now : ℚ) : Bool :=
  decide (getExpirationTime r 100 ≤ now)

/-- `DNSRecord.is_stale`. -/
def isStale (r : DNSRecord) (now : ℚ) : Bool :=
  decide (getExpirationTime r 50 ≤ now)

/-- `DNSRecord.reset_ttl`: take ttl and created time from another record. -/
def resetTTL (r other : DNSRecord) : DNSRecord :=
  { r with created := other.created, ttl := other.ttl }

theorem recordEq_iff (a b : DNSRecord) : recordEq a b = true ↔ a.rdata = b.rdata := by
  unfold recordEq
  cases a.rdata <;> cases b.rdata <;> simp <;> tauto

theorem recordEq_symm (a b : DNSRecord) : recordEq a b = recordEq b a := by
  rw [Bool.eq_iff_iff, recordEq_iff, recordEq_iff, eq_comm]

theorem recordEq_refl (a : DNSRecord) : recordEq a a = true :=
  (recordEq_iff a a).mpr rfl

/-- A sample address record used as concrete input in witnesses. -/
def sampleAddress : DNSRecord :=
  mkRecord [0x61] TYPE_A CLASS_IN 1 0 (.address [127, 0, 0, 1])

/-- C2.  The claim requires `a == b` to imply equal names, types and
classes; but the subclass `__eq__` overrides replace (rather than extend)
`DNSEntry.__eq__`, so two address records with different names and types
still compare equal when their payloads agree. -/
theorem claim_C2_counterexample :
    recordEq sampleAddress
        (mkRecord [0x62] TYPE_AAAA CLASS_IN 7 5 (.address [127, 0, 0, 1])) = true ∧
    sampleAddress.name ≠
      (mkRecord [0x62] TYPE_AAAA CLASS_IN 7 5 (.address [127, 0, 0, 1])).name ∧
    sampleAddress.type ≠
      (mkRecord [0x62] TYPE_AAAA CLASS_IN 7 5 (.address [127, 0, 0, 1])).type := by
  refine ⟨rfl, ?_, ?_⟩ <;> decide

/-- C2 (amended).  Two records compare equal (`==`) iff they carry equal
payloads of the same variant; the name, type, class, key, unique flag, ttl
and created fields never influence equality. -/
theorem claim_C2_equality (a b : DNSRecord) (k n : PyStr) (t c : Nat)
    (u : Bool) (tl cr : ℚ) :
    (recordEq a b = true ↔ a.rdata = b.rdata) ∧
    recordEq
      { a with
        key := k
        name := n
        type := t
        class_ := c
        unique := u
        ttl := tl
        created := cr } b = recordEq a b :=
  ⟨recordEq_iff a b, rfl⟩

/-- C5.  `get_expiration_time(percent)` is `created + percent * ttl * 10`
milliseconds; hence any time at least `created + ttl*1000` is expired
(percent 100) and any time before `created + ttl*500` is not yet stale
(percent 50). -/
theorem claim_C5_expiration (r : DNSRecord) (p tE tS : ℚ) :
    getExpirationTime r p = r.created + p * r.ttl * 10 ∧
    (r.created + r.ttl * 1000 ≤ tE → isExpired r tE = true) ∧
    (tS < r.created + r.ttl * 500 → isStale r tS = false) := by
  refine ⟨rfl, fun h => ?_, fun h => ?_⟩
  · simp only [isExpired, getExpirationTime, decide_eq_true_eq]
    linarith
  · simp only [isStale, getExpirationTime]
    rw [decide_eq_false_iff_not]
    intro hc
    linarith

/-- C5 witness: evaluation at a record with `created = 0`, `ttl = 1`. -/
theorem claim_C5_expiration_witness :
    isExpired sampleAddress 2000 = true ∧ isStale sampleAddress 100 = false := by
  have h := claim_C5_expiration sampleAddress 100 2000 100
  refine ⟨h.2.1 ?_, h.2.2 ?_⟩
  · show (0 : ℚ) + 1 * 1000 ≤ 2000
    norm_num
  · show (100 : ℚ) < 0 + 1 * 500
    norm_num

/-- The record cache (`DNSCache`): a Python dict from lowercase-name key
to the list of records with that key, modelled as an association list in
insertion order. -/
structure DNSCache where
  cache : List (PyStr × List DNSRecord)
  deriving DecidableEq

/-- Python `d[k] = v` on the dict model: replace in place, or append a new
key at the end (dicts preserve insertion order). -/
def dictSet (c : List (PyStr × List DNSRecord)) (k : PyStr)
    (v : List DNSRecord) : List (PyStr × List DNSRecord) :=
  match c with
  | [] => [(k, v)]
  | (k2, v2) :: rest =>
    if k2 == k then (k2, v) :: rest else (k2, v2) :: dictSet rest k v

/-- `DNSCache.add`: `self.cache.setdefault(entry.key, []).append(entry)`. -/
def cacheAdd (c : DNSCache) (entry : DNSRecord) : DNSCache :=
  ⟨dictSet c.cache entry.key (((c.cache.lookup entry.key).getD []) ++ [entry])⟩

/-- Python `list.remove(v)` with the `ValueError` swallowed: drop the first
element comparing equal to `v`. -/
def listRemoveFirst (l : List DNSRecord) (v : DNSRecord) : List DNSRecord :=
  match l with
  | [] => []
  | x :: rest => if recordEq x v then rest else x :: listRemoveFirst rest v

/-- `DNSCache.remove`: remove from the key's bucket, tolerating a missing
key or entry (`except (KeyError, ValueError): pass`). -/
def cacheRemove (c : DNSCache) (entry : DNSRecord) : DNSCache :=
  match c.cache.lookup entry.key with
  | some l => ⟨dictSet c.cache entry.key (listRemoveFirst l entry)⟩
  | none => c

/-- First element of the list comparing equal to `v` (`list.index` plus
indexing, as in `DNSCache.get`). -/
def listFindEq (l : List DNSRecord) (v : DNSRecord) : Option DNSRecord :=
  match l with
  | [] => none
  | x :: rest => if recordEq x v then some x else listFindEq rest v

/-- `DNSCache.get`: scan the key's bucket by record equality. -/
def cacheGet (c : DNSCache) (entry : DNSRecord) : Option DNSRecord :=
  match c.cache.lookup entry.key with
  | some l => listFindEq l entry
  | none => none

/-- `DNSCache.entries_with_name`. -/
def entriesWithName (c : DNSCache) (name : PyStr) : List DNSRecord :=
  (c.cache.lookup name).getD []

/-- `DNSCache.entries`: concatenation of all buckets. -/
def cacheEntries (c : DNSCache) : List DNSRecord :=
  (c.cache.map Prod.snd).flatten

/-- Python `record in entries`: some element compares equal. -/
def containsEq (l : List DNSRecord) (v : DNSRecord) : Bool :=
  l.any fun item => recordEq item v

/-- In-place `entry.reset_ttl(record)` on the first bucket element that
compares equal to `record`. -/
def listResetFirst (l : List DNSRecord) (v : DNSRecord) : List DNSRecord :=
  match l with
  | [] => []
  | x :: rest =>
    if recordEq x v then resetTTL x v :: rest else x :: listResetFirst rest v

/-- The cache effect of one answer in `Zeroconf.handle_response`: an
expired known record is removed; a live known record has its ttl reset in
place; an unknown record is added. -/
def handleResponseStep (c : DNSCache) (now : ℚ) (record : DNSRecord) : DNSCache :=
  if containsEq (cacheEntries c) record then
    if isExpired record now then cacheRemove c record
    else
      match cacheGet c record with
      | some _ =>
        ⟨dictSet c.cache record.key
          (listResetFirst ((c.cache.lookup record.key).getD []) record)⟩
      | none => c
  else cacheAdd c record

/-- The cache effect of `Zeroconf.handle_response` over all answers of a
message. -/
def handleResponse (c : DNSCache) (now : ℚ) (answers : List DNSRecord) : DNSCache :=
  answers.foldl (fun acc r => handleResponseStep acc now r) c

/-- No two records comparing equal coexist in the cache. -/
def NoDupEq (c : DNSCache) : Prop :=
  (cacheEntries c).Pairwise fun a b => recordEq a b = false

/-- A sample pointer record used as concrete input in cache theorems. -/
def samplePointer : DNSRecord :=
  mkRecord [0x61] TYPE_PTR CLASS_IN 1 0 (.pointer [0x78, 0x2E])

theorem recordEq_false_iff (a b : DNSRecord) :
    recordEq a b = false ↔ a.rdata ≠ b.rdata := by
  rw [← Bool.not_eq_true, not_iff_not.mpr (recordEq_iff a b)]

theorem dictSet_lookup_self (cc : List (PyStr × List DNSRecord)) (k : PyStr)
    (v : List DNSRecord) : (dictSet cc k v).lookup k = some v := by
  induction cc with
  | nil => simp [dictSet, List.lookup]
  | cons h rest ih =>
    obtain ⟨k2, v2⟩ := h
    by_cases hk : k2 = k
    · subst hk
      simp [dictSet, List.lookup]
    · have h1 : (k2 == k) = false := by simp [hk]
      have h2 : (k == k2) = false := by simp [Ne.symm hk]
      simp [dictSet, List.lookup, h1, h2, ih]

theorem entries_decomp (cc : List (PyStr × List DNSRecord)) (k : PyStr)
    (l : List DNSRecord) (h : cc.lookup k = some l) :
    ∃ pre suf, (cc.map Prod.snd).flatten = pre ++ (l ++ suf) ∧
      ∀ v, ((dictSet cc k v).map Prod.snd).flatten = pre ++ (v ++ suf) := by
  induction cc with
  | nil => simp [List.lookup] at h
  | cons hd rest ih =>
    obtain ⟨k2, v2⟩ := hd
    by_cases hk : k = k2
    · subst hk
      simp only [List.lookup, beq_self_eq_true] at h
      obtain rfl : v2 = l := by simpa using h
      refine ⟨[], (rest.map Prod.snd).flatten, by simp, fun v => ?_⟩
      simp [dictSet]
    · have h1 : (k == k2) = false := by simp [hk]
      have h2 : (k2 == k) = false := by simp [Ne.symm hk]
      simp only [List.lookup, h1] at h
      obtain ⟨pre, suf, hpre, hset⟩ := ih h
      refine ⟨v2 ++ pre, suf, ?_, fun v => ?_⟩
      · simp [hpre]
      · simp [dictSet, h2, hset v]

theorem lookup_none_entries (cc : List (PyStr × List DNSRecord)) (k : PyStr)
    (v : List DNSRecord) (h : cc.lookup k = none) :
    ((dictSet cc k v).map Prod.snd).flatten = (cc.map Prod.snd).flatten ++ v := by
  induction cc with
  | nil => simp [dictSet]
  | cons hd rest ih =>
    obtain ⟨k2, v2⟩ := hd
    by_cases hk : k = k2
    · subst hk
      simp [List.lookup] at h
    · have h1 : (k == k2) = false := by simp [hk]
      have h2 : (k2 == k) = false := by simp [Ne.symm hk]
      simp only [List.lookup, h1] at h
      simp [dictSet, h2, ih h]

theorem listRemoveFirst_sublist (l : List DNSRecord) (v : DNSRecord) :
    List.Sublist (listRemoveFirst l v) l := by
  induction l with
  | nil => simp [listRemoveFirst]
  | cons x rest ih =>
    rw [listRemoveFirst]
    split
    · exact List.sublist_cons_self x rest
    · exact ih.cons₂ x

theorem listResetFirst_map_rdata (l : List DNSRecord) (v : DNSRecord) :
    (listResetFirst l v).map DNSRecord.rdata = l.map DNSRecord.rdata := by
  induction l with
  | nil => rfl
  | cons x rest ih =>
    rw [listResetFirst]
    split
    · rfl
    · simp [ih]

theorem listRemoveFirst_countP (l : List DNSRecord) (v : DNSRecord)
    (h : containsEq l v = true) :
    (listRemoveFirst l v).countP (fun x => recordEq x v) + 1 =
      l.countP (fun x => recordEq x v) := by
  induction l with
  | nil => simp [containsEq] at h
  | cons x rest ih =>
    by_cases hx : recordEq x v = true
    · rw [listRemoveFirst, if_pos hx, List.countP_cons, hx]
      simp
    · have hx' : recordEq x v = false := by simpa using hx
      have hrest : containsEq rest v = true := by
        simp only [containsEq, List.any_cons, hx'] at h ⊢
        simpa using h
      rw [listRemoveFirst, if_neg (by simp [hx']), List.countP_cons,
        List.countP_cons, hx']
      simpa using ih hrest


theorem noDupEq_iff (c : DNSCache) :
    NoDupEq c ↔ ((cacheEntries c).map DNSRecord.rdata).Nodup := by
  unfold NoDupEq List.Nodup
  rw [List.pairwise_map]
  constructor <;> intro hp <;> refine hp.imp ?_ <;> intro a b hab
  · exact (recordEq_false_iff a b).mp hab
  · exact (recordEq_false_iff a b).mpr hab

theorem handleResponseStep_nodup (c : DNSCache) (now : ℚ) (v : DNSRecord)
    (h : NoDupEq c) : NoDupEq (handleResponseStep c now v) := by
  rw [noDupEq_iff] at h ⊢
  unfold handleResponseStep
  by_cases hc : containsEq (cacheEntries c) v = true
  · rw [if_pos hc]
    by_cases he : isExpired v now = true
    · rw [if_pos he]
      unfold cacheRemove
      cases hl : c.cache.lookup v.key with
      | none => exact h
      | some l =>
        obtain ⟨pre, suf, hdec, hset⟩ := entries_decomp c.cache v.key l hl
        have hE : cacheEntries ⟨dictSet c.cache v.key (listRemoveFirst l v)⟩ =
            pre ++ (listRemoveFirst l v ++ suf) := hset _
        have h2 : cacheEntries c = pre ++ (l ++ suf) := hdec
        rw [h2] at h
        rw [hE]
        have hsub : List.Sublist (pre ++ (listRemoveFirst l v ++ suf))
            (pre ++ (l ++ suf)) :=
          (List.Sublist.refl pre).append
            ((listRemoveFirst_sublist l v).append (List.Sublist.refl suf))
        exact List.Nodup.sublist (hsub.map _) h
    · rw [if_neg he]
      cases hg : cacheGet c v with
      | none => exact h
      | some e =>
        unfold cacheGet at hg
        cases hl : c.cache.lookup v.key with
        | none =>
          rw [hl] at hg
          simp at hg
        | some l =>
          obtain ⟨pre, suf, hdec, hset⟩ := entries_decomp c.cache v.key l hl
          show (List.map DNSRecord.rdata
            (cacheEntries ⟨dictSet c.cache v.key (listResetFirst l v)⟩)).Nodup
          have hE : cacheEntries ⟨dictSet c.cache v.key (listResetFirst l v)⟩ =
              pre ++ (listResetFirst l v ++ suf) := hset _
          rw [hE]
          have h2 : cacheEntries c = pre ++ (l ++ suf) := hdec
          rw [h2] at h
          simpa [listResetFirst_map_rdata] using h
  · rw [if_neg hc]
    have hfresh : v.rdata ∉ (cacheEntries c).map DNSRecord.rdata := by
      intro hmem
      obtain ⟨x, hx, hxe⟩ := List.mem_map.mp hmem
      exact hc (List.any_eq_true.mpr ⟨x, hx, (recordEq_iff x v).mpr hxe⟩)
    unfold cacheAdd
    cases hl : c.cache.lookup v.key with
    | none =>
      show (List.map DNSRecord.rdata
        (cacheEntries ⟨dictSet c.cache v.key [v]⟩)).Nodup
      have hE : cacheEntries ⟨dictSet c.cache v.key [v]⟩ =
          cacheEntries c ++ [v] :=
        lookup_none_entries c.cache v.key [v] hl
      rw [hE]
      have hperm : List.Perm ((cacheEntries c ++ [v]).map DNSRecord.rdata)
          (v.rdata :: (cacheEntries c).map DNSRecord.rdata) := by
        simp only [List.map_append, List.map_cons, List.map_nil]
        exact List.perm_append_singleton _ _
      rw [hperm.nodup_iff]
      exact List.nodup_cons.mpr ⟨hfresh, h⟩
    | some l =>
      obtain ⟨pre, suf, hdec, hset⟩ := entries_decomp c.cache v.key l hl
      show (List.map DNSRecord.rdata
        (cacheEntries ⟨dictSet c.cache v.key (l ++ [v])⟩)).Nodup
      have hE : cacheEntries ⟨dictSet c.cache v.key (l ++ [v])⟩ =
          pre ++ ((l ++ [v]) ++ suf) := hset _
      rw [hE]
      have h2 : cacheEntries c = pre ++ (l ++ suf) := hdec
      rw [h2] at h hfresh
      have hre : pre ++ ((l ++ [v]) ++ suf) = (pre ++ l) ++ (v :: suf) := by
        simp
      rw [hre]
      have hperm : List.Perm (((pre ++ l) ++ (v :: suf)).map DNSRecord.rdata)
          (v.rdata :: ((pre ++ l) ++ suf).map DNSRecord.rdata) := by
        simp only [List.map_append, List.map_cons]
        exact List.perm_middle
      rw [hperm.nodup_iff]
      refine List.nodup_cons.mpr ⟨?_, ?_⟩
      · simpa using hfresh
      · simpa using h

theorem handleResponse_nodup (c : DNSCache) (now : ℚ)
    (answers : List DNSRecord) (h : NoDupEq c) :
    NoDupEq (handleResponse c now answers) := by
  induction answers generalizing c with
  | nil => exact h
  | cons a rest ih =>
    show NoDupEq (handleResponse (handleResponseStep c now a) now rest)
    exact ih _ (handleResponseStep_nodup c now a h)

/-- C6.  The claim requires `DNSCache.add` itself to deduplicate, but
`add` appends unconditionally: adding the same record twice leaves two
equal entries in its bucket (not one), and a subsequent `remove` leaves
one (not zero). -/
theorem claim_C6_counterexample :
    ((entriesWithName (cacheAdd (cacheAdd ⟨[]⟩ samplePointer) samplePointer)
        samplePointer.key).countP (fun x => recordEq x samplePointer) ≠ 1) ∧
    ((entriesWithName
        (cacheRemove (cacheAdd (cacheAdd ⟨[]⟩ samplePointer) samplePointer)
          samplePointer)
        samplePointer.key).countP (fun x => recordEq x samplePointer) ≠ 0) := by
  refine ⟨?_, ?_⟩ <;> decide

/-- C6 (amended).  `DNSCache.add` appends unconditionally, so `add(R)`
followed by `add(R')` with `R == R'` (and equal keys) grows the bucket by
exactly two entries equal to `R`, and a subsequent `remove(R)` deletes
exactly one of them.  The never-coexist invariant is maintained not by
`add` but by `Zeroconf.handle_response`, which resets the cached record's
ttl instead of re-adding an equal record: it preserves the invariant that
no two records comparing equal coexist in the cache. -/
theorem claim_C6_amended (c : DNSCache) (R Rp : DNSRecord)
    (h : recordEq R Rp = true) (hk : Rp.key = R.key) :
    ((entriesWithName (cacheAdd (cacheAdd c R) Rp) R.key).countP
        (fun x => recordEq x R) =
      (entriesWithName c R.key).countP (fun x => recordEq x R) + 2) ∧
    ((entriesWithName (cacheRemove (cacheAdd (cacheAdd c R) Rp) R) R.key).countP
        (fun x => recordEq x R) =
      (entriesWithName c R.key).countP (fun x => recordEq x R) + 1) ∧
    ∀ (c2 : DNSCache) (now : ℚ) (answers : List DNSRecord),
      NoDupEq c2 → NoDupEq (handleResponse c2 now answers) := by
  have hRR : recordEq R R = true := recordEq_refl R
  have hRpR : recordEq Rp R = true := by rw [recordEq_symm]; exact h
  have hb1 : entriesWithName (cacheAdd c R) R.key =
      entriesWithName c R.key ++ [R] := by
    unfold cacheAdd entriesWithName
    rw [dictSet_lookup_self]
    rfl
  have hb2 : entriesWithName (cacheAdd (cacheAdd c R) Rp) R.key =
      (entriesWithName c R.key ++ [R]) ++ [Rp] := by
    unfold cacheAdd entriesWithName
    rw [hk, dictSet_lookup_self]
    simp only [Option.getD_some]
    rw [dictSet_lookup_self]
    rfl
  have hcount2 : ((entriesWithName c R.key ++ [R]) ++ [Rp]).countP
      (fun x => recordEq x R) =
      (entriesWithName c R.key).countP (fun x => recordEq x R) + 2 := by
    rw [List.countP_append, List.countP_append]
    simp [hRR, hRpR]
  refine ⟨by rw [hb2]; exact hcount2, ?_, ?_⟩
  · unfold cacheRemove
    have hl2 : (cacheAdd (cacheAdd c R) Rp).cache.lookup R.key =
        some ((entriesWithName c R.key ++ [R]) ++ [Rp]) := by
      have := hb2
      unfold entriesWithName at this
      cases hx : (cacheAdd (cacheAdd c R) Rp).cache.lookup R.key with
      | none =>
        unfold cacheAdd at hx
        rw [hk, dictSet_lookup_self] at hx
        exact absurd hx (by simp)
      | some b =>
        rw [hx] at this
        simpa using congrArg some this
    rw [hl2]
    have hcontains : containsEq ((entriesWithName c R.key ++ [R]) ++ [Rp]) R = true := by
      unfold containsEq
      refine List.any_eq_true.mpr ⟨R, ?_, hRR⟩
      simp
    have hrem := listRemoveFirst_countP ((entriesWithName c R.key ++ [R]) ++ [Rp])
      R hcontains
    rw [hcount2] at hrem
    have hbucket : entriesWithName
        ⟨dictSet (cacheAdd (cacheAdd c R) Rp).cache R.key
          (listRemoveFirst ((entriesWithName c R.key ++ [R]) ++ [Rp]) R)⟩ R.key =
        listRemoveFirst ((entriesWithName c R.key ++ [R]) ++ [Rp]) R := by
      unfold entriesWithName
      rw [dictSet_lookup_self]
      rfl
    rw [hbucket]
    omega
  · intro c2 now answers h2
    exact handleResponse_nodup c2 now answers h2

/-- C6 witness: evaluation of the amended claim at an initially empty
cache and a concrete pointer record. -/
theorem claim_C6_amended_witness :
    ((entriesWithName (cacheAdd (cacheAdd ⟨[]⟩ samplePointer) samplePointer)
        samplePointer.key).countP (fun x => recordEq x samplePointer) = 2) ∧
    NoDupEq (handleResponse ⟨[]⟩ 0 [samplePointer]) := by
  have h := claim_C6_amended ⟨[]⟩ samplePointer samplePointer
    (recordEq_refl samplePointer) rfl
  refine ⟨?_, ?_⟩
  · have h0 : (entriesWithName (⟨[]⟩ : DNSCache) samplePointer.key).countP
        (fun x => recordEq x samplePointer) = 0 := rfl
    rw [h.1, h0]
  · exact h.2.2 ⟨[]⟩ 0 [samplePointer] (by simp [NoDupEq, cacheEntries])

/-- A key in a `ServiceInfo` properties dict: Python `str` or `bytes`. -/
inductive PropKey where
  | str (s : PyStr)
  | bytes (b : PyBytes)
  deriving DecidableEq

/-- A value in a `ServiceInfo` properties dict as handled by
`_set_properties`: `None`, text, `int` (Python `bool` is an `int`), or any
other object (e.g. raw `bytes`), which the source encodes as empty. -/
inductive PropVal where
  | none
  | str (s : PyStr)
  | int (i : Int)
  | bytes (b : PyBytes)
  deriving DecidableEq

/-- The key as encoded into the text blob: `str` keys are UTF-8 encoded. -/
def propKeyBytes : PropKey → PyBytes
  | .str s => utf8Encode s
  | .bytes b => b

/-- The value suffix as encoded by `_set_properties`. -/
def propSuffix : PropVal → PyBytes
  | .none => []
  | .str s => utf8Encode s
  | .int i => if i ≠ 0 then [0x74, 0x72, 0x75, 0x65] else [0x66, 0x61, 0x6C, 0x73, 0x65]
  | .bytes _ => []

/-- One `key=value` entry of the text blob. -/
def propItem (kv : PropKey × PropVal) : PyBytes :=
  propKeyBytes kv.1 ++ 0x3D :: propSuffix kv.2

/-- `ServiceInfo._set_properties` on a dict: build the TXT blob as the
concatenation of length-prefixed `key=value` entries (`six.int2byte`
fails on an entry longer than 255 bytes). -/
def setPropertiesText (props : List (PropKey × PropVal)) : Except PyErr PyBytes :=
  (props.map propItem).foldlM
    (fun acc item =>
      if item.length ≤ 255 then Except.ok (acc ++ item.length :: item)
      else Except.error PyErr.structError)
    []

/-- A value as produced by `_set_text`: a Python bool or raw bytes. -/
inductive TxtVal where
  | bool (b : Bool)
  | bytes (b : PyBytes)
  deriving DecidableEq

/-- The length-prefixed chunking loop of `_set_text`, fuel-driven (each
step consumes at least the length byte, so the byte length is enough
fuel). -/
def txtStrsAux : Nat → PyBytes → List PyBytes
  | _, [] => []
  | 0, _ :: _ => []
  | fuel + 1, len :: rest => rest.take len :: txtStrsAux fuel (rest.drop len)

/-- The list `strs` built by `_set_text`. -/
def txtStrs (t : PyBytes) : List PyBytes := txtStrsAux t.length t

/-- Python `s.split(sep, 1)` when `sep` occurs: the parts before and after
the first occurrence; `none` when it does not occur (unpacking then raises
`ValueError`). -/
def splitOnce : PyBytes → Nat → Option (PyBytes × PyBytes)
  | [], _ => none
  | c :: rest, sep =>
    if c = sep then some ([], rest)
    else
      match splitOnce rest sep with
      | some (k, v) => some (c :: k, v)
      | none => none

/-- One entry of `_set_text`: split at the first `'='` (no `'='` means the
whole string is the key and the value is `False`), then map `b'true'`,
`b'false'` and empty values to booleans. -/
def parseEntry (s : PyBytes) : PyBytes × TxtVal :=
  match splitOnce s 0x3D with
  | some (k, v) =>
    if v = [0x74, 0x72, 0x75, 0x65] then (k, .bool true)
    else if v = [0x66, 0x61, 0x6C, 0x73, 0x65] ∨ v = [] then (k, .bool false)
    else (k, .bytes v)
  | none => (s, .bool false)

/-- `ServiceInfo._set_text`: parse the blob into a properties map where a
nonempty key's first occurrence wins. -/
def setText (text : PyBytes) : List (PyBytes × TxtVal) :=
  (txtStrs text).foldl
    (fun m s =>
      if (parseEntry s).1 ≠ [] ∧ m.lookup (parseEntry s).1 = none then
        m ++ [parseEntry s]
      else m)
    []

/-- Modelled from the spec claim's words: the claimed normalization
"string values become bytes, int values become true/false, None values
become the empty string" (other values kept as bytes). -/
def claimNormalizeVal : PropVal → TxtVal
  | .none => .bytes []
  | .str s => .bytes (utf8Encode s)
  | .int i => .bytes (if i ≠ 0 then [0x74, 0x72, 0x75, 0x65] else [0x66, 0x61, 0x6C, 0x73, 0x65])
  | .bytes b => .bytes b

/-- The normalization actually performed by build-then-parse: `None` and
other non-text values come back as `False`, ints come back as booleans,
and text `"true"`/`"false"`/`""` collapses to booleans. -/
def actualNormalizeVal : PropVal → TxtVal
  | .none => .bool false
  | .str s =>
    if utf8Encode s = [0x74, 0x72, 0x75, 0x65] then .bool true
    else if utf8Encode s = [0x66, 0x61, 0x6C, 0x73, 0x65] ∨ utf8Encode s = [] then
      .bool false
    else .bytes (utf8Encode s)
  | .int i => .bool (decide (i ≠ 0))
  | .bytes _ => .bool false

/-- C7.  The claimed round-trip normalization maps a `None` value to the
empty byte string, but parsing maps an empty value to `False`: for the
single-entry map `{b"a": None}` the parsed map is `{b"a": False}`, not
`{b"a": b""}`. -/
theorem claim_C7_counterexample :
    setPropertiesText [(PropKey.bytes [0x61], PropVal.none)] =
      Except.ok [2, 0x61, 0x3D] ∧
    setText [2, 0x61, 0x3D] = [([0x61], TxtVal.bool false)] ∧
    ([([0x61], TxtVal.bool false)] : List (PyBytes × TxtVal)) ≠
      [(propKeyBytes (PropKey.bytes [0x61]), claimNormalizeVal PropVal.none)] := by
  refine ⟨rfl, rfl, ?_⟩
  decide

theorem buildItems_ok (items : List PyBytes) (acc : PyBytes)
    (h : ∀ i ∈ items, i.length ≤ 255) :
    items.foldlM
      (fun acc item =>
        if item.length ≤ 255 then Except.ok (acc ++ item.length :: item)
        else Except.error PyErr.structError)
      acc =
    Except.ok (acc ++ (items.map (fun i => i.length :: i)).flatten) := by
  induction items generalizing acc with
  | nil =>
    simp only [List.foldlM_nil, List.map_nil, List.flatten_nil, List.append_nil]
    rfl
  | cons i rest ih =>
    have hi : i.length ≤ 255 := h i (List.mem_cons_self i rest)
    have hrest : ∀ j ∈ rest, j.length ≤ 255 := fun j hj =>
      h j (List.mem_cons_of_mem i hj)
    simp only [List.foldlM_cons, if_pos hi]
    rw [show (Except.ok (acc ++ i.length :: i) : Except PyErr PyBytes) >>=
        (fun b => List.foldlM _ b rest) = rest.foldlM _ (acc ++ i.length :: i)
      from rfl]
    rw [ih (acc ++ i.length :: i) hrest]
    simp

theorem txtStrsAux_nil (fuel : Nat) : txtStrsAux fuel [] = [] := by
  cases fuel <;> rfl

theorem blocks_length_ge (items : List PyBytes) :
    items.length ≤ ((items.map (fun i => i.length :: i)).flatten).length := by
  induction items with
  | nil => simp
  | cons i rest ih =>
    simp only [List.map_cons, List.flatten_cons, List.length_append,
      List.length_cons]
    omega

theorem txtStrsAux_blocks (items : List PyBytes) (fuel : Nat)
    (hf : items.length ≤ fuel) :
    txtStrsAux fuel ((items.map (fun i => i.length :: i)).flatten) = items := by
  induction items generalizing fuel with
  | nil => simpa using txtStrsAux_nil fuel
  | cons i rest ih =>
    cases fuel with
    | zero => simp at hf
    | succ f =>
      have hb : ((i :: rest).map (fun i => i.length :: i)).flatten =
          i.length :: (i ++ (rest.map (fun i => i.length :: i)).flatten) := by
        simp
      rw [hb, txtStrsAux, List.take_left, List.drop_left,
        ih f (by simpa using hf)]

theorem splitOnce_append (k : PyBytes) (h : 0x3D ∉ k) (v : PyBytes) :
    splitOnce (k ++ 0x3D :: v) 0x3D = some (k, v) := by
  induction k with
  | nil => simp [splitOnce]
  | cons c cs ih =>
    have hc : c ≠ 0x3D := fun he => h (he ▸ List.mem_cons_self c cs)
    have hcs : 0x3D ∉ cs := fun hx => h (List.mem_cons_of_mem c hx)
    rw [List.cons_append, splitOnce, if_neg hc, ih hcs]

theorem parseEntry_item (kv : PropKey × PropVal)
    (h : 0x3D ∉ propKeyBytes kv.1) :
    parseEntry (propItem kv) = (propKeyBytes kv.1, actualNormalizeVal kv.2) := by
  obtain ⟨k, v⟩ := kv
  have hsplit : splitOnce (propItem (k, v)) 0x3D =
      some (propKeyBytes k, propSuffix v) := by
    rw [propItem]
    exact splitOnce_append _ h _
  rw [parseEntry, hsplit]
  cases v with
  | none => rfl
  | str s =>
    by_cases h1 : utf8Encode s = [0x74, 0x72, 0x75, 0x65]
    · simp [actualNormalizeVal, propSuffix, h1]
    · by_cases h2 : utf8Encode s = [0x66, 0x61, 0x6C, 0x73, 0x65]
      · simp [actualNormalizeVal, propSuffix, h1, h2]
      · by_cases h3 : utf8Encode s = []
        · simp [actualNormalizeVal, propSuffix, h1, h2, h3]
        · simp [actualNormalizeVal, propSuffix, h1, h2, h3]
  | int i =>
    by_cases hi : i = 0
    · simp [actualNormalizeVal, propSuffix, hi]
    · simp [actualNormalizeVal, propSuffix, hi]
  | bytes b => rfl

theorem lookup_append_none (l1 l2 : List (PyBytes × TxtVal)) (k : PyBytes)
    (h : l1.lookup k = none) : (l1 ++ l2).lookup k = l2.lookup k := by
  induction l1 with
  | nil => simp
  | cons x rest ih =>
    obtain ⟨k2, v2⟩ := x
    by_cases hk : k = k2
    · subst hk
      simp [List.lookup] at h
    · have h1 : (k == k2) = false := by simp [hk]
      simp only [List.lookup, h1] at h
      simp only [List.cons_append, List.lookup, h1]
      exact ih h

theorem foldInsert_general (es : List (PyBytes × TxtVal))
    (acc : List (PyBytes × TxtVal))
    (h1 : ∀ e ∈ es, e.1 ≠ [])
    (h2 : ∀ e ∈ es, acc.lookup e.1 = none)
    (h3 : List.Pairwise (fun a b => a.1 ≠ b.1) es) :
    es.foldl
      (fun m kv => if kv.1 ≠ [] ∧ m.lookup kv.1 = none then m ++ [kv] else m)
      acc = acc ++ es := by
  induction es generalizing acc with
  | nil => simp
  | cons e rest ih =>
    have hs1 : e.1 ≠ [] := h1 e (List.mem_cons_self e rest)
    have hs2 : acc.lookup e.1 = none := h2 e (List.mem_cons_self e rest)
    rw [List.foldl_cons, if_pos (And.intro hs1 hs2),
      ih (acc ++ [e]) (fun x hx => h1 x (List.mem_cons_of_mem e hx))
        (fun x hx => ?_) (List.Pairwise.of_cons h3)]
    · simp
    · rw [lookup_append_none _ _ _ (h2 x (List.mem_cons_of_mem e hx))]
      have hne : x.1 ≠ e.1 := Ne.symm ((List.pairwise_cons.mp h3).1 x hx)
      have hb : (x.1 == e.1) = false := by
        simpa using hne
      simp [List.lookup, hb]

/-- C7 (amended).  For a properties map whose encoded keys are nonempty,
contain no `'='` and are pairwise distinct, and whose entries fit in 255
bytes, building the TXT blob and parsing it back yields the map under the
normalization actually performed: string values become bytes except that
`"true"`, `"false"` and `""` become booleans; int values become the
boolean `int != 0`; `None` and non-text non-int values become `False`. -/
theorem claim_C7_roundtrip (props : List (PropKey × PropVal))
    (hkey : ∀ kv ∈ props, propKeyBytes kv.1 ≠ [] ∧ 0x3D ∉ propKeyBytes kv.1)
    (hlen : ∀ kv ∈ props, (propItem kv).length ≤ 255)
    (hdist : List.Pairwise (fun a b => propKeyBytes a.1 ≠ propKeyBytes b.1) props) :
    ∃ text, setPropertiesText props = Except.ok text ∧
      setText text =
        props.map (fun kv => (propKeyBytes kv.1, actualNormalizeVal kv.2)) := by
  have hitems : ∀ i ∈ props.map propItem, i.length ≤ 255 := by
    intro i hi
    obtain ⟨kv, hkv, rfl⟩ := List.mem_map.mp hi
    exact hlen kv hkv
  refine ⟨((props.map propItem).map (fun i => i.length :: i)).flatten, ?_, ?_⟩
  · unfold setPropertiesText
    rw [buildItems_ok _ [] hitems]
    simp
  · unfold setText txtStrs
    rw [txtStrsAux_blocks _ _ (blocks_length_ge _)]
    have hmap : (props.map propItem).map parseEntry =
        props.map (fun kv => (propKeyBytes kv.1, actualNormalizeVal kv.2)) := by
      rw [List.map_map]
      refine List.map_congr_left fun kv hkv => ?_
      exact parseEntry_item kv (hkey kv hkv).2
    have h0 : List.foldl
        (fun m s =>
          if (parseEntry s).1 ≠ [] ∧ m.lookup (parseEntry s).1 = none then
            m ++ [parseEntry s]
          else m)
        [] (props.map propItem) =
        List.foldl
          (fun m kv => if kv.1 ≠ [] ∧ m.lookup kv.1 = none then m ++ [kv] else m)
          [] ((props.map propItem).map parseEntry) :=
      (List.foldl_map parseEntry
        (fun m kv => if kv.1 ≠ [] ∧ m.lookup kv.1 = none then m ++ [kv] else m)
        (props.map propItem) []).symm
    rw [h0, hmap, foldInsert_general _ [] ?_ ?_ ?_, List.nil_append]
    · intro e he
      obtain ⟨kv, hkv, rfl⟩ := List.mem_map.mp he
      exact (hkey kv hkv).1
    · intro e he
      simp [List.lookup]
    · rw [List.pairwise_map]
      refine hdist.imp_of_mem ?_
      intro a b ha hb hne
      exact hne

/-- C7 witness: evaluation at the map `{b"a": "x"}`. -/
theorem claim_C7_roundtrip_witness :
    ∃ text,
      setPropertiesText [(PropKey.bytes [0x61], PropVal.str [0x78])] =
        Except.ok text ∧
      setText text = [([0x61], TxtVal.bytes [0x78])] := by
  obtain ⟨t, h1, h2⟩ := claim_C7_roundtrip
    [(PropKey.bytes [0x61], PropVal.str [0x78])] (by decide) (by decide)
    (List.pairwise_singleton _ _)
  refine ⟨t, h1, ?_⟩
  rw [h2]
  rfl

/-- The outgoing-message state (`DNSOutgoing`): flags, id, multicast flag,
the name-compression table (`names`), the byte chunks written so far
(`data`, a list of chunks as produced by `pack`/`write_string`), the
running size (starting at 12 for the header prefixed last), and the four
record sections. -/
structure DNSOutgoing where
  finished : Bool
  id : Nat
  multicast : Bool
  flags : Nat
  names : List (PyStr × Nat)
  data : List PyBytes
  size : Nat
  questions : List DNSQuestion
  answers : List (DNSRecord × ℚ)
  authorities : List DNSRecord
  additionals : List DNSRecord
  deriving DecidableEq

/-- `DNSOutgoing.__init__`. -/
def mkOutgoing (flags : Nat) (multicast : Bool) : DNSOutgoing :=
  { finished := false, id := 0, multicast := multicast, flags := flags,
    names := [], data := [], size := 12,
    questions := [], answers := [], authorities := [], additionals := [] }

/-- `DNSOutgoing.add_question`. -/
def add_question (out : DNSOutgoing) (q : DNSQuestion) : DNSOutgoing :=
  { out with questions := out.questions ++ [q] }

/-- `DNSOutgoing.add_answer_at_time`: append unless the record is `None`
or already expired at a nonzero `now`. -/
def add_answer_at_time (out : DNSOutgoing) (record : Option DNSRecord)
    (now : ℚ) : DNSOutgoing :=
  match record with
  | some r =>
    if now = 0 ∨ isExpired r now = false then
      { out with answers := out.answers ++ [(r, now)] }
    else out
  | none => out

/-- Big-endian bytes of an unsigned short (valid for `v < 2^16`). -/
def shortBytes (v : Nat) : PyBytes := [v / 256, v % 256]

/-- Big-endian bytes of an unsigned 32-bit int (valid for `v < 2^32`). -/
def intBytes (v : Nat) : PyBytes :=
  [v / 16777216, v / 65536 % 256, v / 256 % 256, v % 256]

/-- `DNSOutgoing.write_byte` (`pack('!c', int2byte(value))`; `int2byte`
fails outside a byte's range). -/
def write_byte (out : DNSOutgoing) (value : Nat) : Except PyErr DNSOutgoing :=
  if value < 256 then
    Except.ok { out with data := out.data ++ [[value]], size := out.size + 1 }
  else Except.error PyErr.structError

/-- `DNSOutgoing.write_short` (`pack('!H', value)`). -/
def write_short (out : DNSOutgoing) (value : Nat) : Except PyErr DNSOutgoing :=
  if value < 65536 then
    Except.ok
      { out with
        data := out.data ++ [shortBytes value]
        size := out.size + 2 }
  else Except.error PyErr.structError

/-- `DNSOutgoing.write_int` (`pack('!I', int(value))`). -/
def write_int (out : DNSOutgoing) (value : ℚ) : Except PyErr DNSOutgoing :=
  if 0 ≤ pyTrunc value ∧ pyTrunc value < 4294967296 then
    Except.ok
      { out with
        data := out.data ++ [intBytes (pyTrunc value).toNat]
        size := out.size + 4 }
  else Except.error PyErr.structError

/-- `DNSOutgoing.write_string`: append raw bytes. -/
def write_string (out : DNSOutgoing) (value : PyBytes) : DNSOutgoing :=
  { out with data := out.data ++ [value], size := out.size + value.length }

/-- `DNSOutgoing.write_utf`: length-prefixed UTF-8, rejecting an encoding
longer than 64 bytes (the source checks `length > 64`, not `> 63`). -/
def write_utf (out : DNSOutgoing) (s : PyStr) : Except PyErr DNSOutgoing :=
  if (utf8Encode s).length > 64 then Except.error PyErr.namePartTooLong
  else
    write_byte out (utf8Encode s).length >>= fun o1 =>
      Except.ok (write_string o1 (utf8Encode s))

/-- The label list `parts` computed by `DNSOutgoing.write_name`:
`name.split('.')`, dropping one trailing empty part. -/
def nameParts (name : PyStr) : List PyStr :=
  let parts := pySplit name 0x2E
  if parts.getLast? = some [] then parts.dropLast else parts

/-- `DNSOutgoing.write_name`: emit a 2-byte compression pointer when the
name was already written, else record the current size in the table and
emit the labels followed by a zero byte. -/
def write_name (out : DNSOutgoing) (name : PyStr) : Except PyErr DNSOutgoing :=
  match out.names.lookup name with
  | some index =>
    write_byte out ((index >>> 8) ||| 0xC0) >>= fun o1 =>
      write_byte o1 (index &&& 0xFF)
  | none =>
    (nameParts name).foldlM write_utf
        { out with names := (name, out.size) :: out.names } >>= fun o2 =>
      write_byte o2 0

/-- `DNSOutgoing.write_question`. -/
def write_question (out : DNSOutgoing) (q : DNSQuestion) : Except PyErr DNSOutgoing :=
  write_name out q.name >>= fun o1 =>
    write_short o1 q.type >>= fun o2 =>
      write_short o2 q.class_

/-- The subclass `write` methods (`record.write(self)`).  `DNSHinfo.write`
writes the cpu and then reads the nonexistent attribute `self.oso`,
raising `AttributeError`. -/
def recWrite (out : DNSOutgoing) (r : DNSRecord) : Except PyErr DNSOutgoing :=
  match r.rdata with
  | .address a => Except.ok (write_string out a)
  | .hinfo cpu _ =>
    let _ := write_string out cpu
    Except.error PyErr.attributeError
  | .pointer a => write_name out a
  | .text t => Except.ok (write_string out t)
  | .service p w pt srv =>
    write_short out p >>= fun o1 =>
      write_short o1 w >>= fun o2 =>
        write_short o2 pt >>= fun o3 =>
          write_name o3 srv

/-- `DNSOutgoing.insert_short`: insert two bytes at a chunk index. -/
def insert_short (out : DNSOutgoing) (index : Nat) (value : Nat) :
    Except PyErr DNSOutgoing :=
  if value < 65536 then
    Except.ok
      { out with
        data := out.data.insertIdx index (shortBytes value)
        size := out.size + 2 }
  else Except.error PyErr.structError

/-- `DNSOutgoing.write_record`: name, type, class (with the cache-flush
bit when unique and multicast), ttl (remaining ttl when `now` is
nonzero), then the payload, back-filling the rdlength before it. -/
def write_record (out : DNSOutgoing) (record : DNSRecord) (now : ℚ) :
    Except PyErr DNSOutgoing :=
  write_name out record.name >>= fun o1 =>
    write_short o1 record.type >>= fun o2 =>
      (if record.unique ∧ out.multicast = true then
        write_short o2 (record.class_ ||| CLASS_UNIQUE)
      else write_short o2 record.class_) >>= fun o3 =>
        write_int o3
            (if now = 0 then record.ttl else getRemainingTTL record now) >>=
          fun o4 =>
            recWrite { o4 with size := o4.size + 2 } record >>= fun o6 =>
              insert_short { o6 with size := o6.size - 2 } o4.data.length
                (((o6.data.drop o4.data.length).flatten).length)

/-- `DNSOutgoing.packet` (first call, `finished` not yet set): write the
sections in order, then prefix the six header shorts; multicast messages
force the id to 0. -/
def packet (out : DNSOutgoing) : Except PyErr PyBytes :=
  if out.finished then Except.ok out.data.flatten
  else
    out.questions.foldlM write_question out >>= fun o1 =>
      out.answers.foldlM (fun o ar => write_record o ar.1 ar.2) o1 >>= fun o2 =>
        out.authorities.foldlM (fun o r => write_record o r 0) o2 >>= fun o3 =>
          out.additionals.foldlM (fun o r => write_record o r 0) o3 >>= fun o4 =>
            insert_short o4 0 o4.additionals.length >>= fun o5 =>
              insert_short o5 0 o5.authorities.length >>= fun o6 =>
                insert_short o6 0 o6.answers.length >>= fun o7 =>
                  insert_short o7 0 o7.questions.length >>= fun o8 =>
                    insert_short o8 0 o8.flags >>= fun o9 =>
                      (if o9.multicast then insert_short o9 0 0
                        else insert_short o9 0 o9.id) >>= fun o10 =>
                        Except.ok o10.data.flatten

/-- `six.indexbytes`: one byte of the packet, `IndexError` out of range. -/
def indexbytes (data : PyBytes) (i : Nat) : Except PyErr Nat :=
  if h : i < data.length then Except.ok data[i] else Except.error PyErr.indexError

/-- The loop of `DNSIncoming.read_name`.  `off` points at the next length
byte, `next` is the return offset captured at the first pointer, `first`
is the anchor every pointer must jump strictly below.  Termination is by
the lexicographic measure `(first, data.length - off)`: a label step keeps
`first` and strictly advances `off`; a pointer step strictly decreases
`first` (a pointer at or above the anchor raises instead). -/
def read_name_loop (data : PyBytes) (result : PyStr) (off : Nat)
    (next : Option Nat) (first : Nat) : Except PyErr (PyStr × Nat) :=
  if h : off < data.length then
    if data[off] = 0 then
      Except.ok (result, match next with | some n => n | none => off + 1)
    else if data[off] &&& 0xC0 = 0x00 then
      read_name_loop data
        (result ++ utf8Decode ((data.drop (off + 1)).take data[off]) ++ [0x2E])
        (off + 1 + data[off]) next first
    else if data[off] &&& 0xC0 = 0xC0 then
      if h2 : off + 1 < data.length then
        if (data[off] &&& 0x3F) <<< 8 ||| data[off + 1] ≥ first then
          Except.error
            (PyErr.badDomainNameCircular ((data[off] &&& 0x3F) <<< 8 ||| data[off + 1]))
        else
          read_name_loop data result ((data[off] &&& 0x3F) <<< 8 ||| data[off + 1])
            (match next with | none => some (off + 2) | some n => some n)
            ((data[off] &&& 0x3F) <<< 8 ||| data[off + 1])
      else Except.error PyErr.indexError
    else Except.error (PyErr.badDomainName (off + 1))
  else Except.error PyErr.indexError
termination_by (first, data.length - off)
decreasing_by
  · apply Prod.Lex.right
    omega
  · apply Prod.Lex.left
    omega

/-- `DNSIncoming.read_name`: parse a domain name at `off`, returning the
name and the updated cursor. -/
def read_name (data : PyBytes) (off : Nat) : Except PyErr (PyStr × Nat) :=
  read_name_loop data [] off none off

/-- A well-formed DNS label: nonempty, at most 63 UTF-8 bytes, valid
scalars, and no dot. -/
def WFLabel (l : PyStr) : Prop :=
  l ≠ [] ∧ (utf8Encode l).length ≤ 63 ∧ ∀ c ∈ l, ValidScalar c ∧ c ≠ 0x2E

/-- All labels of a name well-formed. -/
def WFLabels (labels : List PyStr) : Prop := ∀ l ∈ labels, WFLabel l

instance (l : PyStr) : Decidable (WFLabel l) := by
  unfold WFLabel; infer_instance

instance (labels : List PyStr) : Decidable (WFLabels labels) := by
  unfold WFLabels; infer_instance

/-- The chunks `write_utf` appends for each label of a name. -/
def labelChunks (labels : List PyStr) : List PyBytes :=
  labels.flatMap fun l => [[(utf8Encode l).length], utf8Encode l]

/-- The plain (pointer-free) wire encoding of a label list: each label as
a length byte plus its UTF-8 bytes, terminated by a zero byte. -/
def plainEnc (labels : List PyStr) : PyBytes :=
  (labelChunks labels).flatten ++ [0]

theorem labels_no_dot (labels : List PyStr) (h : WFLabels labels) :
    ∀ l ∈ labels, 0x2E ∉ l := by
  intro l hl hc
  exact ((h l hl).2.2 0x2E hc).2 rfl

theorem nameParts_joinName (labels : List PyStr)
    (h : ∀ l ∈ labels, 0x2E ∉ l) : nameParts (joinName labels) = labels := by
  unfold nameParts
  rw [pySplit_joinName labels h]
  show (if (labels ++ [[]]).getLast? = some [] then (labels ++ [[]]).dropLast
    else labels ++ [[]]) = labels
  rw [List.getLast?_concat, if_pos rfl, List.dropLast_concat]

attribute [ext] DNSOutgoing

theorem ok_bind {α β : Type} (a : α) (f : α → Except PyErr β) :
    (Except.ok a >>= f : Except PyErr β) = f a := rfl

theorem error_bind {α β : Type} (e : PyErr) (f : α → Except PyErr β) :
    (Except.error e >>= f : Except PyErr β) = Except.error e := rfl

theorem write_byte_ok (out : DNSOutgoing) (v : Nat) (h : v < 256) :
    write_byte out v =
      Except.ok { out with data := out.data ++ [[v]], size := out.size + 1 } := by
  rw [write_byte, if_pos h]

theorem write_short_ok (out : DNSOutgoing) (v : Nat) (h : v < 65536) :
    write_short out v =
      Except.ok
        { out with
          data := out.data ++ [shortBytes v]
          size := out.size + 2 } := by
  rw [write_short, if_pos h]

theorem write_int_ok (out : DNSOutgoing) (v : ℚ)
    (h : 0 ≤ pyTrunc v ∧ pyTrunc v < 4294967296) :
    write_int out v =
      Except.ok
        { out with
          data := out.data ++ [intBytes (pyTrunc v).toNat]
          size := out.size + 4 } := by
  rw [write_int, if_pos h]

theorem write_utf_ok (out : DNSOutgoing) (l : PyStr) (h : WFLabel l) :
    write_utf out l =
      Except.ok
        { out with
          data := out.data ++ [[(utf8Encode l).length], utf8Encode l]
          size := out.size + (1 + (utf8Encode l).length) } := by
  have h63 : (utf8Encode l).length ≤ 63 := h.2.1
  rw [write_utf, if_neg (by omega), write_byte_ok _ _ (by omega), ok_bind]
  unfold write_string
  refine congrArg Except.ok
    (DNSOutgoing.ext ?_ ?_ ?_ ?_ ?_ ?_ ?_ ?_ ?_ ?_ ?_) <;> dsimp only
  all_goals first
    | rfl
    | omega
    | simp

theorem write_utf_fold_ok (labels : List PyStr) (out : DNSOutgoing)
    (h : WFLabels labels) :
    labels.foldlM write_utf out =
      Except.ok
        { out with
          data := out.data ++ labelChunks labels
          size := out.size + ((labelChunks labels).flatten).length } := by
  induction labels generalizing out with
  | nil =>
    show Except.ok out = _
    refine congrArg Except.ok
      (DNSOutgoing.ext ?_ ?_ ?_ ?_ ?_ ?_ ?_ ?_ ?_ ?_ ?_) <;> dsimp only
    all_goals first
      | rfl
      | simp [labelChunks]
  | cons l ls ih =>
    have hl : WFLabel l := h l (List.mem_cons_self l ls)
    have hls : WFLabels ls := fun x hx => h x (List.mem_cons_of_mem l hx)
    rw [List.foldlM_cons, write_utf_ok out l hl]
    show ls.foldlM write_utf _ = _
    rw [ih _ hls]
    refine congrArg Except.ok
      (DNSOutgoing.ext ?_ ?_ ?_ ?_ ?_ ?_ ?_ ?_ ?_ ?_ ?_) <;> dsimp only
    all_goals first
      | rfl
      | (simp [labelChunks]
         try omega)

theorem write_name_fresh (out : DNSOutgoing) (name : PyStr)
    (labels : List PyStr) (hname : name = joinName labels)
    (hwf : WFLabels labels) (hfree : out.names.lookup name = none) :
    write_name out name =
      Except.ok
        { out with
          names := (name, out.size) :: out.names
          data := out.data ++ (labelChunks labels ++ [[0]])
          size := out.size + (plainEnc labels).length } := by
  have hparts : nameParts name = labels := by
    rw [hname]
    exact nameParts_joinName labels (labels_no_dot labels hwf)
  have hpl : (plainEnc labels).length = ((labelChunks labels).flatten).length + 1 := by
    simp [plainEnc]
  rw [write_name, hfree]
  show (nameParts name).foldlM write_utf
      { out with names := (name, out.size) :: out.names } >>=
    (fun o2 => write_byte o2 0) = _
  rw [hparts, write_utf_fold_ok labels _ hwf, ok_bind,
    write_byte_ok _ _ (by omega)]
  refine congrArg Except.ok
    (DNSOutgoing.ext ?_ ?_ ?_ ?_ ?_ ?_ ?_ ?_ ?_ ?_ ?_) <;> dsimp only
  all_goals first
    | rfl
    | (rw [hpl]
       omega)
    | simp

theorem write_name_ptr (out : DNSOutgoing) (name : PyStr) (idx : Nat)
    (hidx : out.names.lookup name = some idx) (hlt : idx < 65536) :
    write_name out name =
      Except.ok
        { out with
          data := out.data ++ [[(idx >>> 8) ||| 0xC0], [idx &&& 0xFF]]
          size := out.size + 2 } := by
  have hhi : (idx >>> 8) ||| 0xC0 < 256 := by
    have h1 : idx >>> 8 < 2 ^ 8 := by
      rw [Nat.shiftRight_eq_div_pow]
      omega
    have h2 : (0xC0 : Nat) < 2 ^ 8 := by norm_num
    have h3 := Nat.or_lt_two_pow h1 h2
    simpa using h3
  have hlo : idx &&& 0xFF < 256 := by
    have h2 : (0xFF : Nat) < 2 ^ 8 := by norm_num
    have h3 := Nat.and_lt_two_pow idx h2
    simpa using h3
  rw [write_name, hidx]
  show write_byte out ((idx >>> 8) ||| 0xC0) >>=
    (fun o1 => write_byte o1 (idx &&& 0xFF)) = _
  rw [write_byte_ok _ _ hhi, ok_bind, write_byte_ok _ _ hlo]
  refine congrArg Except.ok
    (DNSOutgoing.ext ?_ ?_ ?_ ?_ ?_ ?_ ?_ ?_ ?_ ?_ ?_) <;> dsimp only
  all_goals first
    | rfl
    | omega
    | simp

theorem pointer_byte_facts (idx : Nat) (h : idx < 16384) :
    (idx >>> 8) ||| 0xC0 = 192 + idx / 256 ∧
    idx &&& 0xFF = idx % 256 ∧
    0xC000 ||| idx = 49152 + idx ∧
    (192 + idx / 256) &&& 0xC0 = 0xC0 ∧
    ((192 + idx / 256) &&& 0x3F) <<< 8 ||| idx % 256 = idx := by
  have hshift : idx >>> 8 = idx / 256 := by
    rw [Nat.shiftRight_eq_div_pow]
  have hand : idx &&& 0xFF = idx % 256 := by
    have h1 := Nat.and_pow_two_sub_one_eq_mod idx 8
    norm_num at h1
    exact h1
  have hb : idx / 256 < 64 := by omega
  have hor : (idx >>> 8) ||| 0xC0 = 192 + idx / 256 := by
    rw [hshift, Nat.or_comm]
    have h2 := Nat.mul_add_lt_is_or (show idx / 256 < 2 ^ 6 by omega) 3
    norm_num at h2
    exact h2.symm
  have hs1 : (192 + idx / 256) &&& 192 = 192 := by
    have h3 := (show ∀ bb : Fin 64, (192 + bb.val) &&& 192 = 192 by decide)
      ⟨idx / 256, hb⟩
    simpa using h3
  have hs2 : (192 + idx / 256) &&& 63 = idx / 256 := by
    have h3 := (show ∀ bb : Fin 64, (192 + bb.val) &&& 63 = bb.val by decide)
      ⟨idx / 256, hb⟩
    simpa using h3
  refine ⟨hor, hand, ?_, hs1, ?_⟩
  · have h4 := Nat.mul_add_lt_is_or (show idx < 2 ^ 14 by omega) 3
    norm_num at h4
    exact h4.symm
  · rw [hs2, Nat.shiftLeft_eq, Nat.mul_comm (idx / 256) (2 ^ 8)]
    have h5 := Nat.mul_add_lt_is_or (show idx % 256 < 2 ^ 8 by omega) (idx / 256)
    rw [← h5]
    omega

instance {e a : Type} [DecidableEq e] [DecidableEq a] :
    DecidableEq (Except e a) := fun x y =>
  match x, y with
  | .ok u, .ok v =>
    if h : u = v then .isTrue (congrArg Except.ok h)
    else .isFalse fun he => h (Except.ok.inj he)
  | .ok _, .error _ => .isFalse fun he => Except.noConfusion he
  | .error _, .ok _ => .isFalse fun he => Except.noConfusion he
  | .error u, .error v =>
    if h : u = v then .isTrue (congrArg Except.error h)
    else .isFalse fun he => h (Except.error.inj he)

theorem read_name_loop_zero (data : PyBytes) (result : PyStr) (off : Nat)
    (next : Option Nat) (first : Nat) (h : off < data.length)
    (h0 : data[off] = 0) :
    read_name_loop data result off next first =
      Except.ok (result, match next with | some n => n | none => off + 1) := by
  cases next with
  | none =>
    rw [read_name_loop.eq_def]
    rw [dif_pos h, if_pos h0]
  | some n =>
    rw [read_name_loop.eq_def]
    rw [dif_pos h, if_pos h0]

theorem read_name_loop_label (data : PyBytes) (result : PyStr) (off : Nat)
    (next : Option Nat) (first : Nat) (h : off < data.length)
    (h0 : data[off] ≠ 0) (hl : data[off] &&& 0xC0 = 0) :
    read_name_loop data result off next first =
      read_name_loop data
        (result ++ utf8Decode ((data.drop (off + 1)).take data[off]) ++ [0x2E])
        (off + 1 + data[off]) next first := by
  rw [read_name_loop.eq_def]
  rw [dif_pos h, if_neg h0, if_pos hl]

theorem read_name_loop_bad_label (data : PyBytes) (result : PyStr) (off : Nat)
    (next : Option Nat) (first : Nat) (h : off < data.length)
    (h0 : data[off] ≠ 0) (hl : data[off] &&& 0xC0 ≠ 0)
    (hp : data[off] &&& 0xC0 ≠ 0xC0) :
    read_name_loop data result off next first =
      Except.error (PyErr.badDomainName (off + 1)) := by
  rw [read_name_loop.eq_def]
  rw [dif_pos h, if_neg h0, if_neg hl, if_neg hp]

theorem read_name_loop_ptr_bad (data : PyBytes) (result : PyStr) (off : Nat)
    (next : Option Nat) (first : Nat) (h : off < data.length)
    (h0 : data[off] ≠ 0) (hp : data[off] &&& 0xC0 = 0xC0)
    (h2 : off + 1 < data.length)
    (hge : (data[off] &&& 0x3F) <<< 8 ||| data[off + 1] ≥ first) :
    read_name_loop data result off next first =
      Except.error (PyErr.badDomainNameCircular
        ((data[off] &&& 0x3F) <<< 8 ||| data[off + 1])) := by
  have hl : data[off] &&& 0xC0 ≠ 0 := by
    rw [hp]
    decide
  rw [read_name_loop.eq_def]
  rw [dif_pos h, if_neg h0, if_neg hl, if_pos hp, dif_pos h2, if_pos hge]

theorem read_name_loop_ptr_good (data : PyBytes) (result : PyStr) (off : Nat)
    (next : Option Nat) (first : Nat) (h : off < data.length)
    (h0 : data[off] ≠ 0) (hp : data[off] &&& 0xC0 = 0xC0)
    (h2 : off + 1 < data.length)
    (hlt : (data[off] &&& 0x3F) <<< 8 ||| data[off + 1] < first) :
    read_name_loop data result off next first =
      read_name_loop data result ((data[off] &&& 0x3F) <<< 8 ||| data[off + 1])
        (match next with | none => some (off + 2) | some n => some n)
        ((data[off] &&& 0x3F) <<< 8 ||| data[off + 1]) := by
  have hl : data[off] &&& 0xC0 ≠ 0 := by
    rw [hp]
    decide
  cases next with
  | none =>
    rw [read_name_loop.eq_def]
    rw [dif_pos h, if_neg h0, if_neg hl, if_pos hp, dif_pos h2,
      if_neg (by omega)]
  | some n =>
    rw [read_name_loop.eq_def]
    rw [dif_pos h, if_neg h0, if_neg hl, if_pos hp, dif_pos h2,
      if_neg (by omega)]

theorem read_name_loop_oob (data : PyBytes) (result : PyStr) (off : Nat)
    (next : Option Nat) (first : Nat) (h : ¬ off < data.length) :
    read_name_loop data result off next first = Except.error PyErr.indexError := by
  rw [read_name_loop.eq_def]
  rw [dif_neg h]

theorem read_name_loop_next_some (data : PyBytes) (result : PyStr) (off : Nat)
    (next : Option Nat) (first : Nat) :
    ∀ (n : Nat) (res : PyStr) (fin : Nat), next = some n →
      read_name_loop data result off next first = Except.ok (res, fin) →
      fin = n := by
  induction result, off, next, first using read_name_loop.induct data with
  | case1 result off next first h h0 =>
    intro n res fin hn hok
    rw [read_name_loop_zero data result off next first h h0, hn] at hok
    simpa using (congrArg (fun p => p.2) (Except.ok.inj hok)).symm
  | case2 result off next first h h0 hl ih =>
    intro n res fin hn hok
    rw [read_name_loop_label data result off next first h (by simpa using h0) hl]
      at hok
    exact ih n res fin hn hok
  | case3 result off next first h h0 hl hp h4 hge =>
    intro n res fin hn hok
    rw [read_name_loop_ptr_bad data result off next first h (by simpa using h0)
      hp h4 hge] at hok
    exact absurd hok (by simp)
  | case4 result off next first h h0 hl hp h4 hlt ih =>
    intro n res fin hn hok
    subst hn
    rw [read_name_loop_ptr_good data result off (some n) first h
      (by simpa using h0) hp h4 (by omega)] at hok
    exact ih n res fin rfl hok
  | case5 result off next first h h0 hl hp h4 =>
    intro n res fin hn hok
    have hl2 : data[off] &&& 0xC0 ≠ 0 := by simpa using hl
    rw [read_name_loop.eq_def] at hok
    rw [dif_pos h, if_neg (by simpa using h0), if_neg hl2, if_pos hp,
      dif_neg h4] at hok
    exact absurd hok (by simp)
  | case6 result off next first h h0 hl hp =>
    intro n res fin hn hok
    rw [read_name_loop_bad_label data result off next first h
      (by simpa using h0) (by simpa using hl) (by simpa using hp)] at hok
    exact absurd hok (by simp)
  | case7 result off next first h =>
    intro n res fin hn hok
    rw [read_name_loop_oob data result off next first h] at hok
    exact absurd hok (by simp)

/-- C4.  `read_name` terminates on every finite packet: the loop is a
well-founded recursion on the measure `(first, data.length - off)` (see
`read_name_loop`), because a compression pointer must redirect strictly
below the current `first` anchor, which is then updated to the target; a
pointer whose target is at or above the anchor raises a malformed-packet
error instead of looping; and once the first pointer has captured the
return offset (the byte after the pointer's low octet) in `next`, every
successful parse ends with exactly that offset. -/
theorem claim_C4_read_name (data : PyBytes) (result : PyStr) (off : Nat)
    (next : Option Nat) (first : Nat) (h : off < data.length)
    (h0 : data[off] ≠ 0) (hp : data[off] &&& 0xC0 = 0xC0)
    (h2 : off + 1 < data.length) :
    ((data[off] &&& 0x3F) <<< 8 ||| data[off + 1] ≥ first →
      read_name_loop data result off next first =
        Except.error (PyErr.badDomainNameCircular
          ((data[off] &&& 0x3F) <<< 8 ||| data[off + 1]))) ∧
    ((data[off] &&& 0x3F) <<< 8 ||| data[off + 1] < first →
      read_name_loop data result off next first =
        read_name_loop data result ((data[off] &&& 0x3F) <<< 8 ||| data[off + 1])
          (some (next.getD (off + 2)))
          ((data[off] &&& 0x3F) <<< 8 ||| data[off + 1])) ∧
    (∀ (d2 : PyBytes) (r2 res : PyStr) (o2 f2 n fin : Nat),
      read_name_loop d2 r2 o2 (some n) f2 = Except.ok (res, fin) → fin = n) := by
  refine ⟨fun hge =>
      read_name_loop_ptr_bad data result off next first h h0 hp h2 hge,
    fun hlt => ?_,
    fun d2 r2 res o2 f2 n fin hok =>
      read_name_loop_next_some d2 r2 o2 (some n) f2 n res fin rfl hok⟩
  cases next with
  | none =>
    exact read_name_loop_ptr_good data result off none first h h0 hp h2 hlt
  | some n =>
    exact read_name_loop_ptr_good data result off (some n) first h h0 hp h2 hlt

/-- C4 witness: a pointer below the anchor redirects (and captures the
return offset 3); a pointer at or above the anchor is a malformed-packet
error. -/
theorem claim_C4_read_name_witness :
    read_name_loop [0, 0xC0, 0x00] [] 1 none 1 =
      read_name_loop [0, 0xC0, 0x00] [] 0 (some 3) 0 ∧
    read_name_loop [0xC0, 0x05] [] 0 none 0 =
      Except.error (PyErr.badDomainNameCircular 5) := by
  constructor
  · have h := claim_C4_read_name [0, 0xC0, 0x00] [] 1 none 1 (by decide)
      (by decide) (by decide) (by decide)
    exact h.2.1 (by decide)
  · have h := claim_C4_read_name [0xC0, 0x05] [] 0 none 0 (by decide)
      (by decide) (by decide) (by decide)
    exact h.1 (by decide)

/-- C3.  The claim (and the spec) require a label longer than 63 bytes to
fail with `NamePartTooLongException`, but `write_utf` checks `length > 64`:
a 64-byte label is accepted and written, even though the length byte 64
(top bits 01) is rejected as a bad domain name by the module's own
`read_name`; 65 bytes raise, and 63 bytes are accepted. -/
theorem claim_C3_codebug :
    ((write_utf (mkOutgoing 0 true) (List.replicate 64 0x61)).toOption ≠ none) ∧
    write_utf (mkOutgoing 0 true) (List.replicate 65 0x61) =
      Except.error PyErr.namePartTooLong ∧
    ((write_utf (mkOutgoing 0 true) (List.replicate 63 0x61)).toOption ≠ none) ∧
    read_name (64 :: (List.replicate 64 0x61 ++ [0])) 0 =
      Except.error (PyErr.badDomainName 1) := by
  refine ⟨by decide, by decide, by decide, ?_⟩
  rw [read_name]
  rw [read_name_loop_bad_label _ _ _ _ _ (by simp) (by simp) ?_ ?_]
  · show (64 : Nat) &&& 0xC0 ≠ 0
    decide
  · show (64 : Nat) &&& 0xC0 ≠ 0xC0
    decide

/-- C8.  Writing the same name twice emits, for the second occurrence,
exactly two bytes holding `0xC000 ||| offset` big-endian, where `offset`
is the size at which the first occurrence was recorded in the
compression table. -/
theorem claim_C8_compression (out : DNSOutgoing) (name : PyStr)
    (labels : List PyStr) (hname : name = joinName labels)
    (hwf : WFLabels labels) (hfree : out.names.lookup name = none)
    (hsz : out.size < 16384) :
    ∃ out1 out2,
      write_name out name = Except.ok out1 ∧
      write_name out1 name = Except.ok out2 ∧
      out2.data = out1.data ++
        [[(0xC000 ||| out.size) / 256], [(0xC000 ||| out.size) % 256]] ∧
      out2.size = out1.size + 2 := by
  obtain ⟨hp1, hp2, hp3, _, _⟩ := pointer_byte_facts out.size hsz
  have e1 : (out.size >>> 8) ||| 0xC0 = (0xC000 ||| out.size) / 256 := by
    rw [hp1, hp3]
    omega
  have e2 : out.size &&& 0xFF = (0xC000 ||| out.size) % 256 := by
    rw [hp2, hp3]
    omega
  refine ⟨_, _, write_name_fresh out name labels hname hwf hfree,
    write_name_ptr _ name out.size ?_ (by omega), ?_, rfl⟩
  · show List.lookup name ((name, out.size) :: out.names) = some out.size
    simp [List.lookup]
  · dsimp only
    rw [e1, e2]

/-- C8 witness: the name `a.` written twice into a fresh outgoing
message; the first occurrence is recorded at offset 12. -/
theorem claim_C8_compression_witness :
    ∃ out1 out2,
      write_name (mkOutgoing 0 true) [0x61, 0x2E] = Except.ok out1 ∧
      write_name out1 [0x61, 0x2E] = Except.ok out2 ∧
      out2.data = out1.data ++
        [[(0xC000 ||| (mkOutgoing 0 true).size) / 256],
          [(0xC000 ||| (mkOutgoing 0 true).size) % 256]] ∧
      out2.size = out1.size + 2 :=
  claim_C8_compression (mkOutgoing 0 true) [0x61, 0x2E] [[0x61]] (by decide)
    (by decide) (by decide) (by decide)

/-- C9.  `DNSHinfo.write` writes the cpu and then reads the nonexistent
attribute `self.oso` (a typo for `self.os`), so writing any HINFO record
raises `AttributeError` instead of emitting the two character strings. -/
theorem claim_C9_hinfo (out : DNSOutgoing) (r : DNSRecord) (cpu os_ : PyBytes)
    (hr : r.rdata = RData.hinfo cpu os_) :
    recWrite out r = Except.error PyErr.attributeError := by
  unfold recWrite
  rw [hr]

/-- C9 witness: a concrete HINFO record with cpu `b"x"` and os `b"y"`. -/
theorem claim_C9_hinfo_witness :
    recWrite (mkOutgoing 0 true)
      (mkRecord [0x61] TYPE_HINFO CLASS_IN 1 0 (RData.hinfo [0x78] [0x79])) =
      Except.error PyErr.attributeError :=
  claim_C9_hinfo (mkOutgoing 0 true) _ [0x78] [0x79] rfl

/-- The `ServiceInfo` state relevant to `check_service`: service type,
instance name, and the address/port rendered into a mangled name. -/
structure ServiceInfoM where
  type : PyStr
  name : PyStr
  address : PyStr
  port : PyStr
  deriving DecidableEq

/-- `ServiceInfo.__init__`'s name check: the instance name must end with
the type (`BadTypeInNameException` otherwise). -/
def mkServiceInfo (type name address port : PyStr) : Except PyErr ServiceInfoM :=
  if type.isSuffixOf name then
    Except.ok { type := type, name := name, address := address, port := port }
  else Except.error PyErr.structError

/-- The record scan of `check_service`: a non-expired PTR whose alias
equals the instance name is a collision (`record.alias` on a type-12
record that is not a `DNSPointer` would raise `AttributeError`). -/
def scanLoop (now : ℚ) (name : PyStr) : List DNSRecord → Except PyErr Bool
  | [] => Except.ok false
  | r :: rest =>
    if r.type = TYPE_PTR then
      if isExpired r now then scanLoop now name rest
      else
        match r.rdata with
        | .pointer a => if a = name then Except.ok true else scanLoop now name rest
        | _ => Except.error PyErr.attributeError
    else scanLoop now name rest

/-- One scan of `check_service` over the cache bucket of `info.type`. -/
def checkServiceScan (cache : DNSCache) (now : ℚ) (info : ServiceInfoM) :
    Except PyErr Bool :=
  scanLoop now info.name (entriesWithName cache info.type)

/-- The mangled name `'%s.[%s:%s].%s' % (name, address, port, type)`. -/
def renameInfo (info : ServiceInfoM) : ServiceInfoM :=
  { info with
    name := info.name ++ [0x2E, 0x5B] ++ info.address ++ [0x3A] ++
      info.port ++ [0x5D, 0x2E] ++ info.type }

/-- `Zeroconf.check_service` against a fixed cache (all three probe
rounds scan the same entries): on a collision, a name without `'.'` is
mangled once and rechecked, and a name with `'.'` raises
`NonUniqueNameException`.  The fuel bounds the rename recursion (a
mangled name always contains `'.'`, so depth 2 suffices). -/
def check_service : Nat → DNSCache → ℚ → ServiceInfoM → Except PyErr ServiceInfoM
  | 0, _, _, info => Except.ok info
  | fuel + 1, cache, now, info =>
    match checkServiceScan cache now info with
    | Except.error e => Except.error e
    | Except.ok true =>
      if 0x2E ∈ info.name then Except.error PyErr.nonUniqueName
      else check_service fuel cache now (renameInfo info)
    | Except.ok false => Except.ok info

/-- C10.  For a `ServiceInfo` whose name contains a dot (as any name
accepted by the constructor for a dotted type does), `check_service`
never takes the rename branch: a collision raises
`NonUniqueNameException`, and any successful return leaves the name
unchanged. -/
theorem claim_C10_check_service (fuel : Nat) (cache : DNSCache) (now : ℚ)
    (info : ServiceInfoM) (hdot : 0x2E ∈ info.name) :
    (checkServiceScan cache now info = Except.ok true →
      check_service (fuel + 1) cache now info =
        Except.error PyErr.nonUniqueName) ∧
    (∀ info2, check_service (fuel + 1) cache now info = Except.ok info2 →
      info2.name = info.name) ∧
    (∀ (t nm a p : PyStr) (i2 : ServiceInfoM), 0x2E ∈ t →
      mkServiceInfo t nm a p = Except.ok i2 → 0x2E ∈ i2.name) := by
  refine ⟨fun hs => ?_, fun info2 hok => ?_, fun t nm a p i2 ht hmk => ?_⟩
  · rw [check_service, hs, if_pos hdot]
  · rw [check_service] at hok
    cases hscan : checkServiceScan cache now info with
    | error e =>
      rw [hscan] at hok
      exact absurd hok (by simp)
    | ok b =>
      cases b with
      | true =>
        rw [hscan, if_pos hdot] at hok
        exact absurd hok (by simp)
      | false =>
        rw [hscan] at hok
        rw [← Except.ok.inj hok]
  · unfold mkServiceInfo at hmk
    by_cases hsuf : t.isSuffixOf nm
    · rw [if_pos hsuf] at hmk
      obtain rfl : _ = i2 := Except.ok.inj hmk
      have hs : t <:+ nm := by
        rwa [List.isSuffixOf_iff_suffix] at hsuf
      exact hs.sublist.subset ht
    · rw [if_neg hsuf] at hmk
      exact absurd hmk (by simp)

/-- C10 witness: a cache holding a live PTR for type `t.` aliased to
`a.t.`; checking the service `a.t.` raises non-unique and never renames. -/
theorem claim_C10_check_service_witness :
    check_service 3
      (cacheAdd ⟨[]⟩
        (mkRecord [0x74, 0x2E] TYPE_PTR CLASS_IN 1 0
          (RData.pointer [0x61, 0x2E, 0x74, 0x2E])))
      0
      { type := [0x74, 0x2E], name := [0x61, 0x2E, 0x74, 0x2E],
        address := [], port := [] } =
      Except.error PyErr.nonUniqueName := by
  have h := claim_C10_check_service 2
    (cacheAdd ⟨[]⟩
      (mkRecord [0x74, 0x2E] TYPE_PTR CLASS_IN 1 0
        (RData.pointer [0x61, 0x2E, 0x74, 0x2E])))
    0
    { type := [0x74, 0x2E], name := [0x61, 0x2E, 0x74, 0x2E],
      address := [], port := [] }
    (by decide)
  refine h.1 ?_
  have hexp : isExpired
      (mkRecord [0x74, 0x2E] TYPE_PTR CLASS_IN 1 0
        (RData.pointer [0x61, 0x2E, 0x74, 0x2E])) 0 = false := by
    simp only [isExpired, mkRecord, getExpirationTime, decide_eq_false_iff_not]
    norm_num
  simp only [checkServiceScan, entriesWithName, cacheAdd, dictSet,
    List.lookup, scanLoop, hexp]
  rfl

/-- Big-endian 16-bit value at `off` (`struct.unpack('!H')` on the
slice); reads via `getD`, with bounds enforced by the `unpack` models. -/
def readU16 (data : PyBytes) (off : Nat) : Nat :=
  data.getD off 0 * 256 + data.getD (off + 1) 0

/-- Signed big-endian 32-bit value at `off` (`struct.unpack('!i')`). -/
def readI32 (data : PyBytes) (off : Nat) : Int :=
  let u := ((data.getD off 0 * 256 + data.getD (off + 1) 0) * 256 +
    data.getD (off + 2) 0) * 256 + data.getD (off + 3) 0
  if u < 2 ^ 31 then (u : Int) else (u : Int) - 2 ^ 32

/-- `DNSIncoming.unpack(b'!6H')` as used by `read_header`: six shorts
plus the advanced offset (`struct.error` when the slice is short). -/
def unpack6H (data : PyBytes) (off : Nat) :
    Except PyErr (Nat × Nat × Nat × Nat × Nat × Nat × Nat) :=
  if off + 12 ≤ data.length then
    Except.ok (readU16 data off, readU16 data (off + 2), readU16 data (off + 4),
      readU16 data (off + 6), readU16 data (off + 8), readU16 data (off + 10),
      off + 12)
  else Except.error PyErr.structError

/-- `DNSIncoming.unpack(b'!HH')` (question fixed part). -/
def unpackHH (data : PyBytes) (off : Nat) : Except PyErr (Nat × Nat × Nat) :=
  if off + 4 ≤ data.length then
    Except.ok (readU16 data off, readU16 data (off + 2), off + 4)
  else Except.error PyErr.structError

/-- `DNSIncoming.unpack(b'!HHiH')` (record fixed part; the ttl is a
signed 32-bit int). -/
def unpackHHiH (data : PyBytes) (off : Nat) :
    Except PyErr (Nat × Nat × Int × Nat × Nat) :=
  if off + 10 ≤ data.length then
    Except.ok (readU16 data off, readU16 data (off + 2), readI32 data (off + 4),
      readU16 data (off + 8), off + 10)
  else Except.error PyErr.structError

/-- `DNSIncoming.read_string`: a byte slice (silently truncated at the
end of the packet) plus the advanced offset. -/
def read_string (data : PyBytes) (off length : Nat) : PyBytes × Nat :=
  ((data.drop off).take length, off + length)

/-- `DNSIncoming.read_unsigned_short` (`unpack('!H')`). -/
def read_unsigned_short (data : PyBytes) (off : Nat) :
    Except PyErr (Nat × Nat) :=
  if off + 2 ≤ data.length then Except.ok (readU16 data off, off + 2)
  else Except.error PyErr.structError

/-- `DNSIncoming.read_character_string`: length byte (checked by
`indexbytes`) then that many bytes. -/
def read_character_string (data : PyBytes) (off : Nat) :
    Except PyErr (PyBytes × Nat) :=
  indexbytes data off >>= fun length =>
    Except.ok ((data.drop (off + 1)).take length, off + 1 + length)

/-- One iteration of `DNSIncoming.read_others`: name, fixed part, then
the type-directed payload; an unknown type yields no record and skips
`length` bytes. -/
def readRecord (data : PyBytes) (now : ℚ) (off : Nat) :
    Except PyErr (Option DNSRecord × Nat) :=
  read_name data off >>= fun r1 =>
    unpackHHiH data r1.2 >>= fun u =>
      if u.1 = TYPE_A then
        Except.ok (some (mkRecord r1.1 u.1 u.2.1 (u.2.2.1 : ℚ) now
          (RData.address ((data.drop u.2.2.2.2).take 4))), u.2.2.2.2 + 4)
      else if u.1 = TYPE_CNAME ∨ u.1 = TYPE_PTR then
        read_name data u.2.2.2.2 >>= fun r2 =>
          Except.ok (some (mkRecord r1.1 u.1 u.2.1 (u.2.2.1 : ℚ) now
            (RData.pointer r2.1)), r2.2)
      else if u.1 = TYPE_TXT then
        Except.ok (some (mkRecord r1.1 u.1 u.2.1 (u.2.2.1 : ℚ) now
          (RData.text ((data.drop u.2.2.2.2).take u.2.2.2.1))),
          u.2.2.2.2 + u.2.2.2.1)
      else if u.1 = TYPE_SRV then
        read_unsigned_short data u.2.2.2.2 >>= fun s1 =>
          read_unsigned_short data s1.2 >>= fun s2 =>
            read_unsigned_short data s2.2 >>= fun s3 =>
              read_name data s3.2 >>= fun r2 =>
                Except.ok (some (mkRecord r1.1 u.1 u.2.1 (u.2.2.1 : ℚ) now
                  (RData.service s1.1 s2.1 s3.1 r2.1)), r2.2)
      else if u.1 = TYPE_HINFO then
        read_character_string data u.2.2.2.2 >>= fun c1 =>
          read_character_string data c1.2 >>= fun c2 =>
            Except.ok (some (mkRecord r1.1 u.1 u.2.1 (u.2.2.1 : ℚ) now
              (RData.hinfo c1.1 c2.1)), c2.2)
      else if u.1 = TYPE_AAAA then
        Except.ok (some (mkRecord r1.1 u.1 u.2.1 (u.2.2.1 : ℚ) now
          (RData.address ((data.drop u.2.2.2.2).take 16))), u.2.2.2.2 + 16)
      else Except.ok (none, u.2.2.2.2 + u.2.2.2.1)

/-- The loop of `DNSIncoming.read_questions`, counted by the header's
question count. -/
def read_questions_loop (data : PyBytes) :
    Nat → Nat → List DNSQuestion → Except PyErr (List DNSQuestion × Nat)
  | 0, off, acc => Except.ok (acc, off)
  | n + 1, off, acc =>
    read_name data off >>= fun r1 =>
      unpackHH data r1.2 >>= fun u =>
        read_questions_loop data n u.2.2 (acc ++ [mkQuestion r1.1 u.1 u.2.1])

/-- The loop of `DNSIncoming.read_others`, counted by the summed header
counts; skipped unknown types append nothing. -/
def read_others_loop (data : PyBytes) (now : ℚ) :
    Nat → Nat → List DNSRecord → Except PyErr (List DNSRecord × Nat)
  | 0, off, acc => Except.ok (acc, off)
  | n + 1, off, acc =>
    readRecord data now off >>= fun r1 =>
      read_others_loop data now n r1.2
        (match r1.1 with | some r => acc ++ [r] | none => acc)

/-- The parsed message (`DNSIncoming` after `__init__`). -/
structure DNSIncoming where
  id : Nat
  flags : Nat
  num_questions : Nat
  num_answers : Nat
  num_authorities : Nat
  num_additionals : Nat
  questions : List DNSQuestion
  answers : List DNSRecord
  deriving DecidableEq

/-- `DNSIncoming.__init__`: header, questions, then the other sections.
`read_header` unpacks the authority count into the misspelled attribute
`num_quthorities`, so `num_authorities` keeps its initial value 0 and
the value is dropped from the record count. -/
def DNSIncoming_read (data : PyBytes) (now : ℚ) : Except PyErr DNSIncoming :=
  unpack6H data 0 >>= fun h =>
    read_questions_loop data h.2.2.1 h.2.2.2.2.2.2 [] >>= fun q1 =>
      read_others_loop data now (h.2.2.2.1 + 0 + h.2.2.2.2.2.1) q1.2 [] >>=
        fun a1 =>
          Except.ok
            { id := h.1, flags := h.2.1, num_questions := h.2.2.1,
              num_answers := h.2.2.2.1, num_authorities := 0,
              num_additionals := h.2.2.2.2.2.1,
              questions := q1.1, answers := a1.1 }

/-- `seg` occupies the bytes of `data` starting at `off` (forcing, in
particular, that `data` is long enough). -/
def SliceAt (data : PyBytes) (off : Nat) (seg : PyBytes) : Prop :=
  (data.drop off).take seg.length = seg

theorem sliceAt_le (data : PyBytes) (off : Nat) (seg : PyBytes)
    (hne : seg ≠ []) (h : SliceAt data off seg) :
    off + seg.length ≤ data.length := by
  have hpos : 0 < seg.length := List.length_pos.mpr hne
  have hl := congrArg List.length h
  rw [List.length_take, List.length_drop] at hl
  omega

theorem sliceAt_nil (data : PyBytes) (off : Nat) : SliceAt data off [] := rfl

theorem sliceAt_append (data : PyBytes) (off : Nat) (a b : PyBytes) :
    SliceAt data off (a ++ b) ↔
      SliceAt data off a ∧ SliceAt data (off + a.length) b := by
  unfold SliceAt
  rw [List.length_append]
  constructor
  · intro h
    refine ⟨?_, ?_⟩
    · have h1 := congrArg (List.take a.length) h
      rw [List.take_take, Nat.min_eq_left (Nat.le_add_right _ _),
        List.take_left] at h1
      exact h1
    · have h2 := congrArg (List.drop a.length) h
      rw [List.drop_take, List.drop_drop, Nat.add_sub_cancel_left,
        List.drop_left] at h2
      exact h2
  · rintro ⟨h1, h2⟩
    rw [List.take_add, h1]
    congr 1
    rw [List.drop_drop]
    exact h2

theorem sliceAt_singleton (data : PyBytes) (off : Nat) (x : Nat) :
    SliceAt data off [x] ↔ ∃ h : off < data.length, data[off] = x := by
  unfold SliceAt
  constructor
  · intro h
    have hl := congrArg List.length h
    rw [List.length_take, List.length_drop] at hl
    simp at hl
    have hlt : off < data.length := by omega
    rw [List.drop_eq_getElem_cons hlt,
      show (List.length [x]) = 0 + 1 from rfl, List.take_succ_cons,
      List.take_zero] at h
    exact ⟨hlt, (List.cons.inj h).1⟩
  · rintro ⟨h, rfl⟩
    rw [List.drop_eq_getElem_cons h]
    rfl

theorem sliceAt_extend (data ext : PyBytes) (off : Nat) (seg : PyBytes)
    (h : SliceAt data off seg) : SliceAt (data ++ ext) off seg := by
  cases hs : seg with
  | nil => exact sliceAt_nil _ _
  | cons c cs =>
    rw [hs] at h
    have hle := sliceAt_le data off (c :: cs) (by simp) h
    unfold SliceAt at h ⊢
    rw [List.drop_append_of_le_length (by omega),
      List.take_append_of_le_length (by rw [List.length_drop]; omega)]
    exact h

theorem sliceAt_shift (pre data : PyBytes) (k : Nat) (seg : PyBytes) :
    SliceAt (pre ++ data) (pre.length + k) seg ↔ SliceAt data k seg := by
  unfold SliceAt
  rw [List.drop_append]

theorem sliceAt_start (seg ext : PyBytes) : SliceAt (seg ++ ext) 0 seg := by
  unfold SliceAt
  rw [List.drop_zero, List.take_left]

theorem readU16_shortBytes (data : PyBytes) (off v : Nat)
    (h : SliceAt data off (shortBytes v)) : readU16 data off = v := by
  rw [show shortBytes v = [v / 256] ++ [v % 256] from rfl,
    sliceAt_append] at h
  obtain ⟨h1, h2⟩ := h
  rw [show List.length [v / 256] = 1 from rfl] at h2
  rw [sliceAt_singleton] at h1 h2
  obtain ⟨hl1, he1⟩ := h1
  obtain ⟨hl2, he2⟩ := h2
  unfold readU16
  rw [List.getD_eq_getElem data 0 hl1, List.getD_eq_getElem data 0 hl2,
    he1, he2]
  omega

theorem plainEnc_nil : plainEnc [] = [0] := rfl

theorem plainEnc_cons (l : PyStr) (ls : List PyStr) :
    plainEnc (l :: ls) =
      [(utf8Encode l).length] ++ utf8Encode l ++ plainEnc ls := by
  unfold plainEnc labelChunks
  rw [List.flatMap_cons, List.flatten_append]
  simp [List.append_assoc]

theorem plainEnc_length_ge (labels : List PyStr) (hne : labels ≠ [])
    (hwf : WFLabels labels) : 3 ≤ (plainEnc labels).length := by
  cases labels with
  | nil => exact absurd rfl hne
  | cons l ls =>
    have hl : WFLabel l := hwf l (List.mem_cons_self l ls)
    have henc : 1 ≤ (utf8Encode l).length := by
      have h1 := utf8Encode_length_ge l
      cases hll : l with
      | nil => exact absurd hll hl.1
      | cons c cs =>
        rw [hll] at h1
        simp at h1
        omega
    rw [plainEnc_cons]
    cases ls with
    | nil =>
      rw [plainEnc_nil]
      simp
      omega
    | cons m ms =>
      rw [plainEnc_cons]
      simp
      omega

theorem byte63_and_hi (n : Nat) (h : n ≤ 63) : n &&& 0xC0 = 0 := by
  have h3 := (show ∀ bb : Fin 64, bb.val &&& 192 = 0 by decide) ⟨n, by omega⟩
  simpa using h3

theorem utf8Encode_pos (l : PyStr) (hne : l ≠ []) :
    0 < (utf8Encode l).length := by
  have h1 := utf8Encode_length_ge l
  have h2 : 0 < l.length := List.length_pos.mpr hne
  omega

/-- Parsing a plain (pointer-free) name encoding: each label is decoded
and suffixed with a dot, and the cursor lands past the zero byte (unless
a pointer already captured the return offset). -/
theorem read_name_loop_plain (labels : List PyStr) (data : PyBytes)
    (result : PyStr) (off : Nat) (next : Option Nat) (first : Nat)
    (hwf : WFLabels labels)
    (hs : SliceAt data off (plainEnc labels)) :
    read_name_loop data result off next first =
      Except.ok (result ++ joinName labels,
        match next with
        | some n => n
        | none => off + (plainEnc labels).length) := by
  induction labels generalizing result off with
  | nil =>
    rw [plainEnc_nil, sliceAt_singleton] at hs
    obtain ⟨h, h0⟩ := hs
    rw [read_name_loop_zero data result off next first h h0]
    cases next <;> simp [joinName, plainEnc_nil]
  | cons l ls ih =>
    have hl : WFLabel l := hwf l (List.mem_cons_self l ls)
    have hls : WFLabels ls := fun x hx => hwf x (List.mem_cons_of_mem l hx)
    rw [plainEnc_cons, sliceAt_append] at hs
    obtain ⟨hs1, hsrest⟩ := hs
    rw [sliceAt_append] at hs1
    obtain ⟨hs1a, hsenc⟩ := hs1
    rw [show List.length [(utf8Encode l).length] = 1 from rfl] at hsenc
    rw [show ([(utf8Encode l).length] ++ utf8Encode l).length =
      1 + (utf8Encode l).length from by
        simp
        omega, ← Nat.add_assoc] at hsrest
    rw [sliceAt_singleton] at hs1a
    obtain ⟨hlt, hbyte⟩ := hs1a
    have hlen1 : 0 < (utf8Encode l).length := utf8Encode_pos l hl.1
    have h0 : data[off] ≠ 0 := by
      rw [hbyte]
      omega
    have hand : data[off] &&& 0xC0 = 0 := by
      rw [hbyte]
      exact byte63_and_hi _ hl.2.1
    rw [read_name_loop_label data result off next first hlt h0 hand]
    have hcontent : (data.drop (off + 1)).take data[off] = utf8Encode l := by
      rw [hbyte]
      exact hsenc
    rw [hcontent, utf8Decode_encode l (fun c hc => (hl.2.2 c hc).1), hbyte]
    rw [ih (result ++ l ++ [0x2E]) (off + 1 + (utf8Encode l).length) hls hsrest]
    cases next with
    | some n => simp [joinName]
    | none =>
      simp only [joinName, List.flatMap_cons, List.append_assoc,
        Except.ok.injEq, Prod.mk.injEq, plainEnc_cons, List.length_append]
      constructor
      · trivial
      · simp
        omega

theorem mem_of_lookup_some (l : List (PyStr × Nat)) (a : PyStr) (b : Nat)
    (h : l.lookup a = some b) : (a, b) ∈ l := by
  induction l with
  | nil => simp [List.lookup] at h
  | cons p ps ih =>
    rw [List.lookup_cons] at h
    by_cases he : a == p.1
    · rw [he] at h
      simp at h
      have hp : p = (a, b) := by
        cases p
        simp at he h
        simp [he, h]
      simp [hp]
    · rw [Bool.eq_false_iff.mpr he] at h
      simp at h
      exact List.mem_cons_of_mem _ (ih h)

theorem insertIdx_at_append (l1 l2 : List PyBytes) (x : PyBytes) :
    (l1 ++ l2).insertIdx l1.length x = l1 ++ x :: l2 := by
  induction l1 with
  | nil => rfl
  | cons c cs ih => simp [List.insertIdx_succ_cons, ih]

/-- A canonical dotted name: it is the dotted join of its own parts, and
every part is a well-formed label. -/
def WFName (name : PyStr) : Prop :=
  name = joinName (nameParts name) ∧ WFLabels (nameParts name)

instance (name : PyStr) : Decidable (WFName name) := by
  unfold WFName
  infer_instance

/-- The length of the plain wire encoding of a name. -/
def nameLen (name : PyStr) : Nat := (plainEnc (nameParts name)).length

theorem read_name_plain_at (P : PyBytes) (off : Nat) (labels : List PyStr)
    (hwf : WFLabels labels) (hs : SliceAt P off (plainEnc labels)) :
    read_name P off =
      Except.ok (joinName labels, off + (plainEnc labels).length) := by
  unfold read_name
  rw [read_name_loop_plain labels P [] off none off hwf hs]
  simp

theorem read_name_ptr_at (P : PyBytes) (off idx : Nat) (labels : List PyStr)
    (hwf : WFLabels labels) (hidx : idx < 16384) (hlt : idx < off)
    (hp : SliceAt P off [(idx >>> 8) ||| 0xC0, idx &&& 0xFF])
    (hplain : SliceAt P idx (plainEnc labels)) :
    read_name P off = Except.ok (joinName labels, off + 2) := by
  obtain ⟨f1, f2, f3, f4, f5⟩ := pointer_byte_facts idx hidx
  rw [show [(idx >>> 8) ||| 0xC0, idx &&& 0xFF] =
    [(idx >>> 8) ||| 0xC0] ++ [idx &&& 0xFF] from rfl, sliceAt_append] at hp
  obtain ⟨hp1, hp2⟩ := hp
  rw [sliceAt_singleton] at hp1
  rw [show List.length [(idx >>> 8) ||| 0xC0] = 1 from rfl,
    sliceAt_singleton] at hp2
  obtain ⟨hl1, hb1⟩ := hp1
  obtain ⟨hl2, hb2⟩ := hp2
  unfold read_name
  have h0 : P[off] ≠ 0 := by
    rw [hb1, f1]
    omega
  have htag : P[off] &&& 0xC0 = 0xC0 := by
    rw [hb1, f1]
    exact f4
  have htgt : (P[off] &&& 0x3F) <<< 8 ||| P[off + 1] = idx := by
    rw [hb1, hb2, f1, f2]
    exact f5
  have hstep := read_name_loop_ptr_good P [] off none off hl1 h0 htag hl2
    (by rw [htgt]; omega)
  have hstep2 : read_name_loop P [] off none off =
      read_name_loop P [] ((P[off] &&& 0x3F) <<< 8 ||| P[off + 1])
        (some (off + 2)) ((P[off] &&& 0x3F) <<< 8 ||| P[off + 1]) := hstep
  rw [htgt] at hstep2
  rw [hstep2,
    read_name_loop_plain labels P [] idx (some (off + 2)) idx hwf hplain]
  simp

/-- `write_name` at its call site: it appends chunks whose bytes are
either the plain encoding (fresh name, which is then recorded in the
table at the current size) or a two-byte pointer; in any packet holding
these bytes at offset `out.size` and every plain table encoding at its
recorded index, `read_name` at `out.size` returns the dotted name and
advances past the appended bytes. -/
theorem write_name_spec (out : DNSOutgoing) (name : PyStr)
    (hwf : WFName name) (hne : nameParts name ≠ [])
    (htab : ∀ p ∈ out.names, p.2 < 16384 ∧ p.2 + 2 ≤ out.size) :
    ∃ (chunks : List PyBytes) (names2 : List (PyStr × Nat)),
      write_name out name =
        Except.ok { out with
          names := names2
          data := out.data ++ chunks
          size := out.size + chunks.flatten.length } ∧
      2 ≤ chunks.flatten.length ∧
      chunks.flatten.length ≤ nameLen name ∧
      (names2 = out.names ∨
        (names2 = (name, out.size) :: out.names ∧
          chunks.flatten = plainEnc (nameParts name))) ∧
      (∀ P : PyBytes,
        SliceAt P out.size chunks.flatten →
        (∀ p ∈ out.names, SliceAt P p.2 (plainEnc (nameParts p.1))) →
        read_name P out.size =
          Except.ok (joinName (nameParts name),
            out.size + chunks.flatten.length)) := by
  have h3 : 3 ≤ nameLen name := plainEnc_length_ge (nameParts name) hne hwf.2
  cases hlk : out.names.lookup name with
  | some idx =>
    obtain ⟨hidx, hsz⟩ := htab (name, idx) (mem_of_lookup_some _ _ _ hlk)
    refine ⟨[[(idx >>> 8) ||| 0xC0], [idx &&& 0xFF]], out.names, ?_,
      by simp, by simp; omega, Or.inl rfl, ?_⟩
    · rw [write_name_ptr out name idx hlk (by omega)]
      rfl
    · intro P hsP htabP
      have hplain : SliceAt P idx (plainEnc (nameParts name)) :=
        htabP (name, idx) (mem_of_lookup_some _ _ _ hlk)
      have hres := read_name_ptr_at P out.size idx (nameParts name) hwf.2
        hidx (by omega) (by simpa using hsP) hplain
      simpa using hres
  | none =>
    have hflat : (labelChunks (nameParts name) ++ [[0]]).flatten =
        plainEnc (nameParts name) := by
      simp [plainEnc]
    refine ⟨labelChunks (nameParts name) ++ [[0]],
      (name, out.size) :: out.names, ?_, ?_, ?_, Or.inr ⟨rfl, hflat⟩, ?_⟩
    · rw [write_name_fresh out name (nameParts name) hwf.1 hwf.2 hlk]
      rw [hflat]
    · rw [hflat]
      unfold nameLen at h3
      omega
    · rw [hflat]
      exact Nat.le_of_eq rfl
    · intro P hsP htabP
      rw [hflat] at hsP ⊢
      exact read_name_plain_at P out.size (nameParts name) hwf.2 hsP

/-- Every name-table index is a valid pointer target lying strictly
before the current write position. -/
def TableSmall (names : List (PyStr × Nat)) (size : Nat) : Prop :=
  ∀ p ∈ names, p.2 < 16384 ∧ p.2 + 2 ≤ size

/-- Entries added to the table on top of `old` are canonical names whose
plain encoding sits inside the newly appended bytes `seg` (positions
relative to `base`, the write position at which `seg` starts). -/
def NewAligned (base : Nat) (old new : List (PyStr × Nat)) (seg : PyBytes) :
    Prop :=
  ∀ p ∈ new, p ∈ old ∨
    (WFName p.1 ∧ nameParts p.1 ≠ [] ∧ base ≤ p.2 ∧
      SliceAt seg (p.2 - base) (plainEnc (nameParts p.1)))

/-- A question entry the writer can emit: canonical nonempty name and
in-range type and class (the class as stored is already masked). -/
def WFQuestion (q : DNSQuestion) : Prop :=
  WFName q.name ∧ nameParts q.name ≠ [] ∧ q.type < 65536 ∧ q.class_ < 32768

instance (q : DNSQuestion) : Decidable (WFQuestion q) := by
  unfold WFQuestion
  infer_instance

/-- Wire size of a question with an uncompressed name. -/
def qLen (q : DNSQuestion) : Nat := nameLen q.name + 4

theorem write_question_spec (out : DNSOutgoing) (q : DNSQuestion)
    (hq : WFQuestion q)
    (htab : TableSmall out.names out.size)
    (hsz : out.size + nameLen q.name ≤ 16384) :
    ∃ (chunks : List PyBytes) (names2 : List (PyStr × Nat)) (n1 : Nat),
      write_question out q =
        Except.ok { out with
          names := names2
          data := out.data ++ chunks
          size := out.size + chunks.flatten.length } ∧
      chunks.flatten.length = n1 + 4 ∧
      n1 ≤ nameLen q.name ∧
      (∀ p ∈ out.names, p ∈ names2) ∧
      TableSmall names2 (out.size + chunks.flatten.length) ∧
      NewAligned out.size out.names names2 chunks.flatten ∧
      (∀ P : PyBytes,
        SliceAt P out.size chunks.flatten →
        (∀ p ∈ names2, SliceAt P p.2 (plainEnc (nameParts p.1))) →
        read_name P out.size = Except.ok (q.name, out.size + n1) ∧
        unpackHH P (out.size + n1) =
          Except.ok (q.type, q.class_, out.size + chunks.flatten.length)) := by
  have h3 : 3 ≤ nameLen q.name := plainEnc_length_ge _ hq.2.1 hq.1.2
  obtain ⟨c1, names2, hwn, hge2, hle, hbr, hparse⟩ :=
    write_name_spec out q.name hq.1 hq.2.1 htab
  refine ⟨c1 ++ [shortBytes q.type, shortBytes q.class_], names2,
    c1.flatten.length, ?_, ?_, hle, ?_, ?_, ?_, ?_⟩
  · rw [write_question, hwn, ok_bind,
      write_short_ok _ _ hq.2.2.1, ok_bind,
      write_short_ok _ _ (by have := hq.2.2.2; omega)]
    refine congrArg Except.ok
      (DNSOutgoing.ext ?_ ?_ ?_ ?_ ?_ ?_ ?_ ?_ ?_ ?_ ?_) <;> dsimp only
    all_goals first
      | rfl
      | (simp [shortBytes]
         try omega)
  · simp [shortBytes]
  · intro p hp
    rcases hbr with hb | ⟨hb, _⟩
    · rw [← hb] at hp
      exact hp
    · rw [hb]
      exact List.mem_cons_of_mem _ hp
  · intro p hp
    rcases hbr with hb | ⟨hb, hfl⟩
    · rw [hb] at hp
      have := htab p hp
      simp [shortBytes]
      omega
    · rw [hb] at hp
      rcases List.mem_cons.mp hp with hp1 | hp2
      · rw [hp1]
        simp [shortBytes]
        omega
      · have := htab p hp2
        simp [shortBytes]
        omega
  · intro p hp
    rcases hbr with hb | ⟨hb, hfl⟩
    · rw [hb] at hp
      exact Or.inl hp
    · rw [hb] at hp
      rcases List.mem_cons.mp hp with hp1 | hp2
      · refine Or.inr ?_
        rw [hp1]
        refine ⟨hq.1, hq.2.1, Nat.le_refl _, ?_⟩
        show SliceAt (c1 ++ [shortBytes q.type, shortBytes q.class_]).flatten
          (out.size - out.size) (plainEnc (nameParts q.name))
        rw [Nat.sub_self]
        have hflatten2 : (c1 ++ [shortBytes q.type, shortBytes q.class_]).flatten =
            plainEnc (nameParts q.name) ++
              (shortBytes q.type ++ (shortBytes q.class_ ++ [])) := by
          simp [hfl]
        rw [hflatten2]
        exact sliceAt_start _ _
      · exact Or.inl hp2
  · intro P hsP htabP
    have hflatten : (c1 ++ [shortBytes q.type, shortBytes q.class_]).flatten =
        c1.flatten ++ (shortBytes q.type ++ (shortBytes q.class_ ++ [])) := by
      simp
    rw [hflatten] at hsP
    rw [sliceAt_append] at hsP
    obtain ⟨hsc1, hsrest⟩ := hsP
    rw [sliceAt_append] at hsrest
    obtain ⟨hst, hsrest2⟩ := hsrest
    rw [show (shortBytes q.type).length = 2 from rfl] at hsrest2
    rw [sliceAt_append] at hsrest2
    obtain ⟨hsc, _⟩ := hsrest2
    have hrn := hparse P hsc1 fun p hp => htabP p ((by
      rcases hbr with hb | ⟨hb, _⟩
      · rw [← hb] at hp
        exact hp
      · rw [hb]
        exact List.mem_cons_of_mem _ hp))
    constructor
    · rw [hrn, ← hq.1.1]
    · have hbound := sliceAt_le P (out.size + c1.flatten.length + 2)
        (shortBytes q.class_) (by simp [shortBytes]) hsc
      rw [unpackHH, if_pos (by simp [shortBytes] at hbound; simp; omega)]
      rw [readU16_shortBytes P _ q.type hst,
        readU16_shortBytes P _ q.class_ hsc]
      simp [shortBytes]
      omega

/-- Total uncompressed wire size of a question section. -/
def qsLen : List DNSQuestion → Nat
  | [] => 0
  | q :: qs => qLen q + qsLen qs

theorem read_questions_loop_succ (data : PyBytes) (n off : Nat)
    (acc : List DNSQuestion) :
    read_questions_loop data (n + 1) off acc =
      read_name data off >>= fun r1 =>
        unpackHH data r1.2 >>= fun u =>
          read_questions_loop data n u.2.2 (acc ++ [mkQuestion r1.1 u.1 u.2.1]) :=
  rfl

/-- Writing a question section leaves appended bytes from which the
question loop re-reads exactly the constructed questions. -/
theorem write_questions_fold (qs : List DNSQuestion) (out : DNSOutgoing)
    (hwf : ∀ q ∈ qs, WFQuestion q)
    (htab : TableSmall out.names out.size)
    (hsz : out.size + qsLen qs ≤ 16384) :
    ∃ (chunks : List PyBytes) (names2 : List (PyStr × Nat)),
      qs.foldlM write_question out =
        Except.ok { out with
          names := names2
          data := out.data ++ chunks
          size := out.size + chunks.flatten.length } ∧
      chunks.flatten.length ≤ qsLen qs ∧
      (∀ p ∈ out.names, p ∈ names2) ∧
      TableSmall names2 (out.size + chunks.flatten.length) ∧
      NewAligned out.size out.names names2 chunks.flatten ∧
      (∀ (P : PyBytes) (acc : List DNSQuestion),
        SliceAt P out.size chunks.flatten →
        (∀ p ∈ names2, SliceAt P p.2 (plainEnc (nameParts p.1))) →
        read_questions_loop P qs.length out.size acc =
          Except.ok
            (acc ++ qs.map (fun q => mkQuestion q.name q.type q.class_),
              out.size + chunks.flatten.length)) := by
  induction qs generalizing out with
  | nil =>
    refine ⟨[], out.names, ?_, by simp [qsLen], fun p hp => hp, ?_, ?_, ?_⟩
    · show Except.ok out = _
      refine congrArg Except.ok
        (DNSOutgoing.ext ?_ ?_ ?_ ?_ ?_ ?_ ?_ ?_ ?_ ?_ ?_) <;> dsimp only
      all_goals simp
    · intro p hp
      have := htab p hp
      simp
      omega
    · intro p hp
      exact Or.inl hp
    · intro P acc _ _
      show Except.ok (acc, out.size) = _
      simp
  | cons q qs ih =>
    have hq : WFQuestion q := hwf q (List.mem_cons_self q qs)
    have hqs : ∀ x ∈ qs, WFQuestion x := fun x hx =>
      hwf x (List.mem_cons_of_mem q hx)
    have hqsz : qsLen (q :: qs) = qLen q + qsLen qs := rfl
    have h3 : 3 ≤ nameLen q.name := plainEnc_length_ge _ hq.2.1 hq.1.2
    obtain ⟨c1, names1, n1, hstep, hc1len, hn1le, hsub1, htab1, hal1, hp1⟩ :=
      write_question_spec out q hq htab
        (by unfold qLen at hqsz; omega)
    obtain ⟨c2, names2, hfold, hc2len, hsub2, htab2, hal2, hp2⟩ :=
      ih { out with
          names := names1
          data := out.data ++ c1
          size := out.size + c1.flatten.length } hqs htab1
        (by
          show out.size + c1.flatten.length + qsLen qs ≤ 16384
          unfold qLen at hqsz
          omega)
    refine ⟨c1 ++ c2, names2, ?_, ?_, ?_, ?_, ?_, ?_⟩
    · rw [List.foldlM_cons, hstep, ok_bind, hfold]
      refine congrArg Except.ok
        (DNSOutgoing.ext ?_ ?_ ?_ ?_ ?_ ?_ ?_ ?_ ?_ ?_ ?_) <;> dsimp only
      all_goals first
        | rfl
        | (simp
           try omega)
    · have hf : (c1 ++ c2).flatten.length =
          c1.flatten.length + c2.flatten.length := by
        simp
      rw [hqsz, hf]
      unfold qLen at *
      omega
    · intro p hp
      exact hsub2 p (hsub1 p hp)
    · intro p hp
      have := htab2 p hp
      simp at this ⊢
      omega
    · intro p hp
      rcases hal2 p hp with hin1 | ⟨hw, hn, hbase, hs⟩
      · rcases hal1 p hin1 with hin0 | ⟨hw, hn, hbase, hs⟩
        · exact Or.inl hin0
        · refine Or.inr ⟨hw, hn, hbase, ?_⟩
          rw [show (c1 ++ c2).flatten = c1.flatten ++ c2.flatten from by simp]
          exact sliceAt_extend _ _ _ _ hs
      · have hbase2 : out.size + c1.flatten.length ≤ p.2 := hbase
        have hs2 : SliceAt c2.flatten (p.2 - (out.size + c1.flatten.length))
            (plainEnc (nameParts p.1)) := hs
        refine Or.inr ⟨hw, hn, by omega, ?_⟩
        rw [show (c1 ++ c2).flatten = c1.flatten ++ c2.flatten from by simp]
        rw [show p.2 - out.size =
          c1.flatten.length + (p.2 - (out.size + c1.flatten.length)) from by
            omega]
        rw [sliceAt_shift]
        exact hs2
    · intro P acc hsP htabP
      rw [show (c1 ++ c2).flatten = c1.flatten ++ c2.flatten from by simp]
        at hsP
      rw [sliceAt_append] at hsP
      obtain ⟨hsc1, hsc2⟩ := hsP
      have htabP1 : ∀ p ∈ names1, SliceAt P p.2 (plainEnc (nameParts p.1)) :=
        fun p hp => htabP p (hsub2 p hp)
      obtain ⟨hrn, hu⟩ := hp1 P hsc1 htabP1
      have hrec := hp2 P (acc ++ [mkQuestion q.name q.type q.class_]) hsc2 htabP
      show read_questions_loop P (qs.length + 1) out.size acc = _
      rw [read_questions_loop_succ, hrn, ok_bind, hu, ok_bind]
      dsimp only
      rw [hrec]
      simp only [Except.ok.injEq, Prod.mk.injEq]
      constructor
      · simp
      · simp
        omega

/-- Uncompressed wire size of a record payload. -/
def rdataLen : RData → Nat
  | .address a => a.length
  | .hinfo _ _ => 0
  | .pointer al => nameLen al
  | .text t => t.length
  | .service _ _ _ srv => 6 + nameLen srv

/-- Payload/type coherence: the variant matches the type constant the
reader dispatches on, with the side conditions each writer/reader pair
needs (HINFO is excluded because `DNSHinfo.write` raises). -/
def rdCoh (type : Nat) : RData → Prop
  | .address a =>
    (type = TYPE_A ∧ a.length = 4) ∨ (type = TYPE_AAAA ∧ a.length = 16)
  | .hinfo _ _ => False
  | .pointer al =>
    (type = TYPE_CNAME ∨ type = TYPE_PTR) ∧ WFName al ∧ nameParts al ≠ []
  | .text _ => type = TYPE_TXT
  | .service p w pt srv =>
    type = TYPE_SRV ∧ p < 65536 ∧ w < 65536 ∧ pt < 65536 ∧
      WFName srv ∧ nameParts srv ≠ []

instance (type : Nat) : (rd : RData) → Decidable (rdCoh type rd)
  | .address a => by unfold rdCoh; infer_instance
  | .hinfo _ _ => by unfold rdCoh; infer_instance
  | .pointer al => by unfold rdCoh; infer_instance
  | .text _ => by unfold rdCoh; infer_instance
  | .service p w pt srv => by unfold rdCoh; infer_instance

def WFRecord (r : DNSRecord) : Prop :=
  WFName r.name ∧ nameParts r.name ≠ [] ∧ r.type < 65536 ∧ r.class_ < 32768 ∧
    rdCoh r.type r.rdata

instance (r : DNSRecord) : Decidable (WFRecord r) := by
  unfold WFRecord
  infer_instance

/-- The ttl value `write_record` passes to `write_int`. -/
def ttlWritten (r : DNSRecord) (now : ℚ) : ℚ :=
  if now = 0 then r.ttl else getRemainingTTL r now

/-- An answer entry the writer can emit: well-formed record and a ttl
that fits `pack('!I', int(ttl))`. -/
def WFAnswer (ar : DNSRecord × ℚ) : Prop :=
  WFRecord ar.1 ∧ 0 ≤ pyTrunc (ttlWritten ar.1 ar.2) ∧
    pyTrunc (ttlWritten ar.1 ar.2) < 4294967296

/-- Uncompressed wire size of a record. -/
def rLen (r : DNSRecord) : Nat := nameLen r.name + 10 + rdataLen r.rdata

/-- Total uncompressed wire size of an answer section. -/
def asLen : List (DNSRecord × ℚ) → Nat
  | [] => 0
  | ar :: rest => rLen ar.1 + asLen rest

theorem read_others_loop_succ (data : PyBytes) (now : ℚ) (n off : Nat)
    (acc : List DNSRecord) :
    read_others_loop data now (n + 1) off acc =
      readRecord data now off >>= fun r1 =>
        read_others_loop data now n r1.2
          (match r1.1 with | some r => acc ++ [r] | none => acc) :=
  rfl

theorem TableSmall_mono (names : List (PyStr × Nat)) (s s2 : Nat)
    (h : TableSmall names s) (hle : s ≤ s2) : TableSmall names s2 := by
  intro p hp
  have := h p hp
  omega

/-- The overall shape of `write_record`: name, type, class, ttl, then the
payload chunks `cp` produced by the record's `write` method, with the
rdlength short inserted between the fixed part and the payload (the
size having been bumped by 2 before the payload so that name-table
entries recorded inside the payload already account for it). -/
theorem write_record_eq (out : DNSOutgoing) (r : DNSRecord) (t : ℚ)
    (c1 cp : List PyBytes) (names1 : List (PyStr × Nat))
    (names2fun : Nat → List (PyStr × Nat))
    (hwn : write_name out r.name =
      Except.ok { out with
        names := names1
        data := out.data ++ c1
        size := out.size + c1.flatten.length })
    (htype : r.type < 65536)
    (hcvlt : (if r.unique ∧ out.multicast = true then
      r.class_ ||| CLASS_UNIQUE else r.class_) < 65536)
    (httl : 0 ≤ pyTrunc (ttlWritten r t) ∧
      pyTrunc (ttlWritten r t) < 4294967296)
    (hpay : ∀ o : DNSOutgoing, o.names = names1 →
      recWrite o r = Except.ok { o with
        names := names2fun o.size
        data := o.data ++ cp
        size := o.size + cp.flatten.length })
    (hnp : cp.flatten.length < 65536) :
    write_record out r t = Except.ok { out with
      names := names2fun (out.size + c1.flatten.length + 10)
      data := out.data ++
        (c1 ++ [shortBytes r.type,
          shortBytes (if r.unique ∧ out.multicast = true then
            r.class_ ||| CLASS_UNIQUE else r.class_),
          intBytes (pyTrunc (ttlWritten r t)).toNat,
          shortBytes cp.flatten.length] ++ cp)
      size := out.size +
        ((c1 ++ [shortBytes r.type,
          shortBytes (if r.unique ∧ out.multicast = true then
            r.class_ ||| CLASS_UNIQUE else r.class_),
          intBytes (pyTrunc (ttlWritten r t)).toNat,
          shortBytes cp.flatten.length] ++ cp).flatten.length) } := by
  have httl2 : 0 ≤ pyTrunc (if t = 0 then r.ttl else getRemainingTTL r t) ∧
      pyTrunc (if t = 0 then r.ttl else getRemainingTTL r t) <
        4294967296 := httl
  have hifw : ∀ o : DNSOutgoing,
      (if r.unique ∧ out.multicast = true then
        write_short o (r.class_ ||| CLASS_UNIQUE)
      else write_short o r.class_) =
      write_short o (if r.unique ∧ out.multicast = true then
        r.class_ ||| CLASS_UNIQUE else r.class_) := by
    intro o
    by_cases h : r.unique ∧ out.multicast = true <;> simp [h]
  rw [write_record, hwn, ok_bind, write_short_ok _ _ htype, ok_bind, hifw,
    write_short_ok _ _ hcvlt, ok_bind, write_int_ok _ _ httl2, ok_bind,
    hpay _ (by rfl), ok_bind, insert_short]
  dsimp only
  rw [List.drop_left, if_pos hnp, insertIdx_at_append]
  refine congrArg Except.ok
    (DNSOutgoing.ext ?_ ?_ ?_ ?_ ?_ ?_ ?_ ?_ ?_ ?_ ?_) <;> dsimp only
  all_goals first
    | rfl
    | (congr 1
       omega)
    | (simp [shortBytes, intBytes, ttlWritten]
       try omega)

theorem sliceAt_after (x y : PyBytes) (k : Nat) (seg : PyBytes)
    (h : SliceAt y k seg) : SliceAt (x ++ y) (x.length + k) seg :=
  (sliceAt_shift x y k seg).mpr h

/-- Decomposition of a record's appended bytes into name, type, class,
ttl, rdlength and payload slices, with normalized offsets. -/
theorem record_slices (P : PyBytes) (q0 : Nat)
    (c1f st sc si srd cpf : PyBytes)
    (hsP : SliceAt P q0 (c1f ++ (st ++ (sc ++ (si ++ (srd ++ cpf))))))
    (hst2 : st.length = 2) (hsc2 : sc.length = 2) (hsi4 : si.length = 4)
    (hsrd2 : srd.length = 2) :
    SliceAt P q0 c1f ∧ SliceAt P (q0 + c1f.length) st ∧
    SliceAt P (q0 + c1f.length + 2) sc ∧
    SliceAt P (q0 + c1f.length + 4) si ∧
    SliceAt P (q0 + c1f.length + 8) srd ∧
    SliceAt P (q0 + c1f.length + 10) cpf := by
  rw [sliceAt_append] at hsP
  obtain ⟨h1, hsP⟩ := hsP
  rw [sliceAt_append] at hsP
  obtain ⟨h2, hsP⟩ := hsP
  rw [hst2, sliceAt_append] at hsP
  obtain ⟨h3, hsP⟩ := hsP
  rw [hsc2, sliceAt_append] at hsP
  obtain ⟨h4, hsP⟩ := hsP
  rw [hsi4, sliceAt_append] at hsP
  obtain ⟨h5, h6⟩ := hsP
  rw [hsrd2] at h6
  refine ⟨h1, h2, ?_, ?_, ?_, ?_⟩
  · rw [show q0 + c1f.length + 2 = q0 + c1f.length + 2 from rfl]
    exact h3
  · rw [show q0 + c1f.length + 4 = q0 + c1f.length + 2 + 2 from by omega]
    exact h4
  · rw [show q0 + c1f.length + 8 = q0 + c1f.length + 2 + 2 + 4 from by omega]
    exact h5
  · rw [show q0 + c1f.length + 10 =
      q0 + c1f.length + 2 + 2 + 4 + 2 from by omega]
    exact h6

/-- The fixed record header parse, given the written slices. -/
theorem unpackHHiH_at (P : PyBytes) (q ty rdl : Nat)
    (hst : SliceAt P q (shortBytes ty))
    (hsrd : SliceAt P (q + 8) (shortBytes rdl))
    (hend : q + 10 ≤ P.length) :
    unpackHHiH P q =
      Except.ok (ty, readU16 P (q + 2), readI32 P (q + 4), rdl, q + 10) := by
  rw [unpackHHiH, if_pos hend, readU16_shortBytes P q ty hst,
    readU16_shortBytes P (q + 8) rdl hsrd]

/-- `write_name` inside a record payload, characterized against any
state carrying the table `names1`: the appended bytes and the table
update depend only on `names1`, and the bytes parse back at any
position they land at, provided every `names1` index points below it. -/
theorem write_name_payload (names1 : List (PyStr × Nat)) (al : PyStr)
    (hwf : WFName al) (hne : nameParts al ≠ [])
    (htab16 : ∀ p ∈ names1, p.2 < 16384) :
    ∃ (cp : List PyBytes) (n2f : Nat → List (PyStr × Nat)),
      (∀ o : DNSOutgoing, o.names = names1 →
        write_name o al = Except.ok { o with
          names := n2f o.size
          data := o.data ++ cp
          size := o.size + cp.flatten.length }) ∧
      2 ≤ cp.flatten.length ∧ cp.flatten.length ≤ nameLen al ∧
      ((∀ s, n2f s = names1) ∨
        ((∀ s, n2f s = (al, s) :: names1) ∧
          cp.flatten = plainEnc (nameParts al))) ∧
      (∀ (P : PyBytes) (pos : Nat),
        SliceAt P pos cp.flatten →
        (∀ p ∈ names1,
          SliceAt P p.2 (plainEnc (nameParts p.1)) ∧ p.2 + 2 ≤ pos) →
        read_name P pos =
          Except.ok (joinName (nameParts al), pos + cp.flatten.length)) := by
  have h3 : 3 ≤ nameLen al := plainEnc_length_ge (nameParts al) hne hwf.2
  cases hlk : names1.lookup al with
  | some idx =>
    have hidx : idx < 16384 := htab16 (al, idx) (mem_of_lookup_some _ _ _ hlk)
    refine ⟨[[(idx >>> 8) ||| 0xC0], [idx &&& 0xFF]], fun _ => names1,
      ?_, by simp, by simp; omega, Or.inl (fun s => rfl), ?_⟩
    · intro o ho
      rw [write_name_ptr o al idx (by rw [ho]; exact hlk) (by omega)]
      refine congrArg Except.ok
        (DNSOutgoing.ext ?_ ?_ ?_ ?_ ?_ ?_ ?_ ?_ ?_ ?_ ?_) <;> dsimp only
      all_goals first
        | rfl
        | (rw [ho])
        | simp
    · intro P pos hsP htabP
      obtain ⟨hplain, hbelow⟩ := htabP (al, idx) (mem_of_lookup_some _ _ _ hlk)
      have hres := read_name_ptr_at P pos idx (nameParts al) hwf.2 hidx
        (by omega) (by simpa using hsP) hplain
      simpa using hres
  | none =>
    have hflat : (labelChunks (nameParts al) ++ [[0]]).flatten =
        plainEnc (nameParts al) := by
      simp [plainEnc]
    refine ⟨labelChunks (nameParts al) ++ [[0]],
      fun s => (al, s) :: names1, ?_, ?_, ?_,
      Or.inr ⟨fun s => rfl, hflat⟩, ?_⟩
    · intro o ho
      rw [write_name_fresh o al (nameParts al) hwf.1 hwf.2
        (by rw [ho]; exact hlk), hflat]
      refine congrArg Except.ok
        (DNSOutgoing.ext ?_ ?_ ?_ ?_ ?_ ?_ ?_ ?_ ?_ ?_ ?_) <;> dsimp only
      all_goals first
        | rfl
        | (rw [ho])
        | simp
    · rw [hflat]
      unfold nameLen at h3
      omega
    · rw [hflat]
      exact Nat.le_of_eq rfl
    · intro P pos hsP htabP
      rw [hflat] at hsP ⊢
      exact read_name_plain_at P pos (nameParts al) hwf.2 hsP

theorem sliceAt_refl (s : PyBytes) : SliceAt s 0 s := by
  unfold SliceAt
  simp

theorem read_unsigned_short_at (P : PyBytes) (q v : Nat)
    (hs : SliceAt P q (shortBytes v)) :
    read_unsigned_short P q = Except.ok (v, q + 2) := by
  have hb := sliceAt_le P q (shortBytes v) (by simp [shortBytes]) hs
  rw [read_unsigned_short,
    if_pos (by simp [shortBytes] at hb; omega),
    readU16_shortBytes P q v hs]

/-- Writing one answer record appends bytes from which `readRecord`
returns a record carrying exactly the written payload (name, type,
class and ttl fields of the parsed record are rebuilt by `mkRecord` and
do not take part in record equality). -/
theorem write_record_spec (out : DNSOutgoing) (r : DNSRecord) (t pnow : ℚ)
    (ha : WFAnswer (r, t))
    (htab : TableSmall out.names out.size)
    (hsz : out.size + rLen r ≤ 16384) :
    ∃ (chunks : List PyBytes) (names2 : List (PyStr × Nat)),
      write_record out r t = Except.ok { out with
        names := names2
        data := out.data ++ chunks
        size := out.size + chunks.flatten.length } ∧
      chunks.flatten.length ≤ rLen r ∧
      (∀ p ∈ out.names, p ∈ names2) ∧
      TableSmall names2 (out.size + chunks.flatten.length) ∧
      NewAligned out.size out.names names2 chunks.flatten ∧
      (∀ P : PyBytes,
        SliceAt P out.size chunks.flatten →
        (∀ p ∈ names2, SliceAt P p.2 (plainEnc (nameParts p.1))) →
        ∃ rec : DNSRecord, rec.rdata = r.rdata ∧
          readRecord P pnow out.size =
            Except.ok (some rec, out.size + chunks.flatten.length)) := by
  obtain ⟨hr, httl0A, httl1A⟩ := ha
  obtain ⟨hWn0, hne0, htype0, hclass0, hcoh0⟩ := hr
  have hWn : WFName r.name := hWn0
  have hne : nameParts r.name ≠ [] := hne0
  have htype : r.type < 65536 := htype0
  have hclass : r.class_ < 32768 := hclass0
  have hcoh : rdCoh r.type r.rdata := hcoh0
  have httl0 : 0 ≤ pyTrunc (ttlWritten r t) := httl0A
  have httl1 : pyTrunc (ttlWritten r t) < 4294967296 := httl1A
  have h3 : 3 ≤ nameLen r.name := plainEnc_length_ge _ hne hWn.2
  obtain ⟨c1, names1, hwn, hge2, hle1, hbr1, hparse1⟩ :=
    write_name_spec out r.name hWn hne htab
  have hrlen : rLen r = nameLen r.name + 10 + rdataLen r.rdata := rfl
  have houtsz : out.size + 13 ≤ 16384 := by
    rw [hrlen] at hsz
    omega
  have htab1 : TableSmall names1 (out.size + c1.flatten.length) := by
    intro p hp
    rcases hbr1 with hb | ⟨hb, _⟩
    · rw [hb] at hp
      have := htab p hp
      omega
    · rw [hb] at hp
      rcases List.mem_cons.mp hp with h1 | h2
      · rw [h1]
        constructor <;> omega
      · have := htab p h2
        omega
  have hsubn : ∀ p ∈ out.names, p ∈ names1 := by
    intro p hp
    rcases hbr1 with hb | ⟨hb, _⟩
    · rw [hb]
      exact hp
    · rw [hb]
      exact List.mem_cons_of_mem _ hp
  have hcvlt : (if r.unique ∧ out.multicast = true then
      r.class_ ||| CLASS_UNIQUE else r.class_) < 65536 := by
    split
    · have h1 : r.class_ < 2 ^ 16 := by omega
      have h2 : CLASS_UNIQUE < 2 ^ 16 := by norm_num [CLASS_UNIQUE]
      have := Nat.or_lt_two_pow h1 h2
      simpa using this
    · omega
  have htopAligned : ∀ rest : PyBytes,
      names1 = (r.name, out.size) :: out.names →
      c1.flatten = plainEnc (nameParts r.name) →
      SliceAt (c1.flatten ++ rest) (out.size - out.size)
        (plainEnc (nameParts r.name)) := by
    intro rest _ hc1pl
    rw [Nat.sub_self, hc1pl]
    exact sliceAt_start _ _
  cases hrd : r.rdata with
  | hinfo cpu os_ =>
    rw [hrd] at hcoh
    simp only [rdCoh] at hcoh
  | address a =>
    rw [hrd] at hcoh
    simp only [rdCoh] at hcoh
    have hlenA : a.length = 4 ∨ a.length = 16 := by
      rcases hcoh with ⟨_, h4⟩ | ⟨_, h16⟩
      · exact Or.inl h4
      · exact Or.inr h16
    have hpay : ∀ o : DNSOutgoing, o.names = names1 →
        recWrite o r = Except.ok { o with
          names := names1
          data := o.data ++ [a]
          size := o.size + ([a] : List PyBytes).flatten.length } := by
      intro o ho
      unfold recWrite
      rw [hrd]
      unfold write_string
      refine congrArg Except.ok
        (DNSOutgoing.ext ?_ ?_ ?_ ?_ ?_ ?_ ?_ ?_ ?_ ?_ ?_) <;> dsimp only
      all_goals first
        | rfl
        | (rw [ho])
        | simp
    have hnp : ([a] : List PyBytes).flatten.length < 65536 := by
      simp
      omega
    have hW := write_record_eq out r t c1 [a] names1 (fun _ => names1) hwn
      htype hcvlt ⟨httl0, httl1⟩ hpay hnp
    have hflen : ((c1 ++ [shortBytes r.type,
        shortBytes (if r.unique ∧ out.multicast = true then
          r.class_ ||| CLASS_UNIQUE else r.class_),
        intBytes (pyTrunc (ttlWritten r t)).toNat,
        shortBytes ([a] : List PyBytes).flatten.length] ++ [a]).flatten).length =
        c1.flatten.length + 10 + a.length := by
      simp [shortBytes, intBytes]
      omega
    have hflat : ((c1 ++ [shortBytes r.type,
        shortBytes (if r.unique ∧ out.multicast = true then
          r.class_ ||| CLASS_UNIQUE else r.class_),
        intBytes (pyTrunc (ttlWritten r t)).toNat,
        shortBytes ([a] : List PyBytes).flatten.length] ++ [a]).flatten) =
        c1.flatten ++ (shortBytes r.type ++
          (shortBytes (if r.unique ∧ out.multicast = true then
            r.class_ ||| CLASS_UNIQUE else r.class_) ++
          (intBytes (pyTrunc (ttlWritten r t)).toNat ++
          (shortBytes ([a] : List PyBytes).flatten.length ++ a)))) := by
      simp
    refine ⟨_, names1, hW, ?_, hsubn, ?_, ?_, ?_⟩
    · rw [hflen, hrlen, hrd]
      simp only [rdataLen]
      omega
    · refine TableSmall_mono names1 _ _ htab1 ?_
      rw [hflen]
      omega
    · intro p hp
      rcases hbr1 with hb | ⟨hb, hc1pl⟩
      · rw [hb] at hp
        exact Or.inl hp
      · rw [hb] at hp
        rcases List.mem_cons.mp hp with h1 | h2
        · refine Or.inr ?_
          rw [h1]
          refine ⟨hWn, hne, Nat.le_refl _, ?_⟩
          rw [hflat]
          exact htopAligned _ hb hc1pl
        · exact Or.inl h2
    · intro P hsP htabP
      rw [hflat] at hsP
      obtain ⟨hs1, hst, hsc, hsi, hs5, hs6⟩ := record_slices P out.size
        c1.flatten (shortBytes r.type) _ _ _ a hsP rfl rfl rfl rfl
      have hrn := hparse1 P hs1 (fun p hp => htabP p (hsubn p hp))
      rw [← hWn.1] at hrn
      have hbound : out.size + c1.flatten.length + 10 ≤ P.length := by
        have h := sliceAt_le P _ _ (by simp [shortBytes]) hs5
        simp only [shortBytes, List.length_cons, List.length_nil] at h
        omega
      have hunp := unpackHHiH_at P (out.size + c1.flatten.length) r.type
        (([a] : List PyBytes).flatten.length) hst hs5 hbound
      rw [readRecord, hrn, ok_bind]
      dsimp only
      rw [hunp, ok_bind]
      dsimp only
      rcases hcoh with ⟨hA, ha4⟩ | ⟨hAA, ha16⟩
      · rw [if_pos hA]
        have hslice : (P.drop (out.size + c1.flatten.length + 10)).take 4 =
            a := by
          have h := hs6
          unfold SliceAt at h
          rw [ha4] at h
          exact h
        rw [hslice]
        refine ⟨mkRecord r.name r.type
          (readU16 P (out.size + c1.flatten.length + 2))
          ((readI32 P (out.size + c1.flatten.length + 4)) : ℚ) pnow
          (RData.address a), rfl, ?_⟩
        simp only [Except.ok.injEq, Prod.mk.injEq]
        refine ⟨trivial, ?_⟩
        rw [hflen]
        omega
      · rw [if_neg (by rw [hAA]; decide), if_neg (by rw [hAA]; decide),
          if_neg (by rw [hAA]; decide), if_neg (by rw [hAA]; decide),
          if_neg (by rw [hAA]; decide), if_pos hAA]
        have hslice : (P.drop (out.size + c1.flatten.length + 10)).take 16 =
            a := by
          have h := hs6
          unfold SliceAt at h
          rw [ha16] at h
          exact h
        rw [hslice]
        refine ⟨mkRecord r.name r.type
          (readU16 P (out.size + c1.flatten.length + 2))
          ((readI32 P (out.size + c1.flatten.length + 4)) : ℚ) pnow
          (RData.address a), rfl, ?_⟩
        simp only [Except.ok.injEq, Prod.mk.injEq]
        refine ⟨trivial, ?_⟩
        rw [hflen]
        omega
  | text tx =>
    rw [hrd] at hcoh
    simp only [rdCoh] at hcoh
    have hpay : ∀ o : DNSOutgoing, o.names = names1 →
        recWrite o r = Except.ok { o with
          names := names1
          data := o.data ++ [tx]
          size := o.size + ([tx] : List PyBytes).flatten.length } := by
      intro o ho
      unfold recWrite
      rw [hrd]
      unfold write_string
      refine congrArg Except.ok
        (DNSOutgoing.ext ?_ ?_ ?_ ?_ ?_ ?_ ?_ ?_ ?_ ?_ ?_) <;> dsimp only
      all_goals first
        | rfl
        | (rw [ho])
        | simp
    have htxlen : tx.length ≤ rdataLen r.rdata := by
      rw [hrd]
      simp [rdataLen]
    have hnp : ([tx] : List PyBytes).flatten.length < 65536 := by
      simp
      rw [hrlen] at hsz
      omega
    have hW := write_record_eq out r t c1 [tx] names1 (fun _ => names1) hwn
      htype hcvlt ⟨httl0, httl1⟩ hpay hnp
    have hflen : ((c1 ++ [shortBytes r.type,
        shortBytes (if r.unique ∧ out.multicast = true then
          r.class_ ||| CLASS_UNIQUE else r.class_),
        intBytes (pyTrunc (ttlWritten r t)).toNat,
        shortBytes ([tx] : List PyBytes).flatten.length] ++ [tx]).flatten).length =
        c1.flatten.length + 10 + tx.length := by
      simp [shortBytes, intBytes]
      omega
    have hflat : ((c1 ++ [shortBytes r.type,
        shortBytes (if r.unique ∧ out.multicast = true then
          r.class_ ||| CLASS_UNIQUE else r.class_),
        intBytes (pyTrunc (ttlWritten r t)).toNat,
        shortBytes ([tx] : List PyBytes).flatten.length] ++ [tx]).flatten) =
        c1.flatten ++ (shortBytes r.type ++
          (shortBytes (if r.unique ∧ out.multicast = true then
            r.class_ ||| CLASS_UNIQUE else r.class_) ++
          (intBytes (pyTrunc (ttlWritten r t)).toNat ++
          (shortBytes ([tx] : List PyBytes).flatten.length ++ tx)))) := by
      simp
    refine ⟨_, names1, hW, ?_, hsubn, ?_, ?_, ?_⟩
    · rw [hflen, hrlen, hrd]
      simp only [rdataLen]
      omega
    · refine TableSmall_mono names1 _ _ htab1 ?_
      rw [hflen]
      omega
    · intro p hp
      rcases hbr1 with hb | ⟨hb, hc1pl⟩
      · rw [hb] at hp
        exact Or.inl hp
      · rw [hb] at hp
        rcases List.mem_cons.mp hp with h1 | h2
        · refine Or.inr ?_
          rw [h1]
          refine ⟨hWn, hne, Nat.le_refl _, ?_⟩
          rw [hflat]
          exact htopAligned _ hb hc1pl
        · exact Or.inl h2
    · intro P hsP htabP
      rw [hflat] at hsP
      obtain ⟨hs1, hst, hsc, hsi, hs5, hs6⟩ := record_slices P out.size
        c1.flatten (shortBytes r.type) _ _ _ tx hsP rfl rfl rfl rfl
      have hrn := hparse1 P hs1 (fun p hp => htabP p (hsubn p hp))
      rw [← hWn.1] at hrn
      have hbound : out.size + c1.flatten.length + 10 ≤ P.length := by
        have h := sliceAt_le P _ _ (by simp [shortBytes]) hs5
        simp only [shortBytes, List.length_cons, List.length_nil] at h
        omega
      have hunp := unpackHHiH_at P (out.size + c1.flatten.length) r.type
        (([tx] : List PyBytes).flatten.length) hst hs5 hbound
      rw [readRecord, hrn, ok_bind]
      dsimp only
      rw [hunp, ok_bind]
      dsimp only
      rw [if_neg (by rw [hcoh]; decide), if_neg (by rw [hcoh]; decide),
        if_pos hcoh]
      have hslice : (P.drop (out.size + c1.flatten.length + 10)).take
          (([tx] : List PyBytes).flatten.length) = tx := by
        have h := hs6
        unfold SliceAt at h
        rw [show ([tx] : List PyBytes).flatten.length = tx.length from by simp]
        exact h
      rw [hslice]
      refine ⟨mkRecord r.name r.type
          (readU16 P (out.size + c1.flatten.length + 2))
          ((readI32 P (out.size + c1.flatten.length + 4)) : ℚ) pnow
          (RData.text tx), rfl, ?_⟩
      simp only [Except.ok.injEq, Prod.mk.injEq]
      refine ⟨trivial, ?_⟩
      rw [hflen]
      have hl2 : ([tx] : List PyBytes).flatten.length = tx.length := by simp
      omega
  | pointer al =>
    rw [hrd] at hcoh
    simp only [rdCoh] at hcoh
    obtain ⟨hCP, hWal, hneal⟩ := hcoh
    have h3al : 3 ≤ nameLen al := plainEnc_length_ge _ hneal hWal.2
    have hrdl : rdataLen r.rdata = nameLen al := by
      rw [hrd]
      simp [rdataLen]
    obtain ⟨ncp, n2f, hwp, hge2p, hlep, hbrp, hppar⟩ :=
      write_name_payload names1 al hWal hneal (fun p hp => (htab1 p hp).1)
    have hpay : ∀ o : DNSOutgoing, o.names = names1 →
        recWrite o r = Except.ok { o with
          names := n2f o.size
          data := o.data ++ ncp
          size := o.size + ncp.flatten.length } := by
      intro o ho
      unfold recWrite
      rw [hrd]
      exact hwp o ho
    have hnp : ncp.flatten.length < 65536 := by
      rw [hrlen, hrdl] at hsz
      omega
    have hW := write_record_eq out r t c1 ncp names1 n2f hwn
      htype hcvlt ⟨httl0, httl1⟩ hpay hnp
    have hflen : ((c1 ++ [shortBytes r.type,
        shortBytes (if r.unique ∧ out.multicast = true then
          r.class_ ||| CLASS_UNIQUE else r.class_),
        intBytes (pyTrunc (ttlWritten r t)).toNat,
        shortBytes ncp.flatten.length] ++ ncp).flatten).length =
        c1.flatten.length + 10 + ncp.flatten.length := by
      simp [shortBytes, intBytes]
      omega
    have hflat : ((c1 ++ [shortBytes r.type,
        shortBytes (if r.unique ∧ out.multicast = true then
          r.class_ ||| CLASS_UNIQUE else r.class_),
        intBytes (pyTrunc (ttlWritten r t)).toNat,
        shortBytes ncp.flatten.length] ++ ncp).flatten) =
        c1.flatten ++ (shortBytes r.type ++
          (shortBytes (if r.unique ∧ out.multicast = true then
            r.class_ ||| CLASS_UNIQUE else r.class_) ++
          (intBytes (pyTrunc (ttlWritten r t)).toNat ++
          (shortBytes ncp.flatten.length ++ ncp.flatten)))) := by
      simp
    refine ⟨_, n2f (out.size + c1.flatten.length + 10), hW, ?_, ?_, ?_, ?_, ?_⟩
    · rw [hflen, hrlen, hrdl]
      omega
    · intro p hp
      rcases hbrp with hb | ⟨hb, _⟩
      · rw [hb]
        exact hsubn p hp
      · rw [hb]
        exact List.mem_cons_of_mem _ (hsubn p hp)
    · intro p hp
      rcases hbrp with hb | ⟨hb, _⟩
      · rw [hb] at hp
        have := htab1 p hp
        rw [hflen]
        omega
      · rw [hb] at hp
        rcases List.mem_cons.mp hp with h1 | h2
        · rw [h1]
          rw [hrlen, hrdl] at hsz
          rw [hflen]
          constructor <;> omega
        · have := htab1 p h2
          rw [hflen]
          omega
    · intro p hp
      have hinner : ∀ hfl : ncp.flatten = plainEnc (nameParts al),
          SliceAt ((c1 ++ [shortBytes r.type,
            shortBytes (if r.unique ∧ out.multicast = true then
              r.class_ ||| CLASS_UNIQUE else r.class_),
            intBytes (pyTrunc (ttlWritten r t)).toNat,
            shortBytes ncp.flatten.length] ++ ncp).flatten)
            (out.size + c1.flatten.length + 10 - out.size)
            (plainEnc (nameParts al)) := by
        intro hfl
        have hb0 : SliceAt ncp.flatten 0 (plainEnc (nameParts al)) := by
          rw [hfl]
          exact sliceAt_refl _
        have h1 := sliceAt_after (shortBytes ncp.flatten.length) _ _ _ hb0
        have h2 := sliceAt_after
          (intBytes (pyTrunc (ttlWritten r t)).toNat) _ _ _ h1
        have h4 := sliceAt_after
          (shortBytes (if r.unique ∧ out.multicast = true then
            r.class_ ||| CLASS_UNIQUE else r.class_)) _ _ _ h2
        have h5 := sliceAt_after (shortBytes r.type) _ _ _ h4
        have h6 := sliceAt_after c1.flatten _ _ _ h5
        rw [← hflat] at h6
        rw [show c1.flatten.length + ((shortBytes r.type).length +
          ((shortBytes (if r.unique ∧ out.multicast = true then
            r.class_ ||| CLASS_UNIQUE else r.class_)).length +
          ((intBytes (pyTrunc (ttlWritten r t)).toNat).length +
          ((shortBytes ncp.flatten.length).length + 0)))) =
          c1.flatten.length + 10 from by simp [shortBytes, intBytes]] at h6
        rw [show out.size + c1.flatten.length + 10 - out.size =
          c1.flatten.length + 10 from by omega]
        exact h6
      rcases hbrp with hb | ⟨hb, hfl⟩
      · rw [hb] at hp
        rcases hbr1 with hb1 | ⟨hb1, hc1pl⟩
        · rw [hb1] at hp
          exact Or.inl hp
        · rw [hb1] at hp
          rcases List.mem_cons.mp hp with h1 | h2
          · refine Or.inr ?_
            rw [h1]
            refine ⟨hWn, hne, Nat.le_refl _, ?_⟩
            rw [hflat]
            exact htopAligned _ hb1 hc1pl
          · exact Or.inl h2
      · rw [hb] at hp
        rcases List.mem_cons.mp hp with h1 | h2
        · refine Or.inr ?_
          rw [h1]
          refine ⟨hWal, hneal, by omega, hinner hfl⟩
        · rcases hbr1 with hb1 | ⟨hb1, hc1pl⟩
          · rw [hb1] at h2
            exact Or.inl h2
          · rw [hb1] at h2
            rcases List.mem_cons.mp h2 with h21 | h22
            · refine Or.inr ?_
              rw [h21]
              refine ⟨hWn, hne, Nat.le_refl _, ?_⟩
              rw [hflat]
              exact htopAligned _ hb1 hc1pl
            · exact Or.inl h22
    · intro P hsP htabP
      have hsubn2 : ∀ p ∈ names1, p ∈ n2f (out.size + c1.flatten.length + 10) := by
        intro p hp
        rcases hbrp with hb | ⟨hb, _⟩
        · rw [hb]
          exact hp
        · rw [hb]
          exact List.mem_cons_of_mem _ hp
      rw [hflat] at hsP
      obtain ⟨hs1, hst, hsc, hsi, hs5, hs6⟩ := record_slices P out.size
        c1.flatten (shortBytes r.type) _ _ _ ncp.flatten hsP rfl rfl rfl rfl
      have hrn := hparse1 P hs1 (fun p hp => htabP p (hsubn2 p (hsubn p hp)))
      rw [← hWn.1] at hrn
      have hbound : out.size + c1.flatten.length + 10 ≤ P.length := by
        have h := sliceAt_le P _ _ (by simp [shortBytes]) hs5
        simp only [shortBytes, List.length_cons, List.length_nil] at h
        omega
      have hunp := unpackHHiH_at P (out.size + c1.flatten.length) r.type
        ncp.flatten.length hst hs5 hbound
      rw [readRecord, hrn, ok_bind]
      dsimp only
      rw [hunp, ok_bind]
      dsimp only
      have hnA : ¬(r.type = TYPE_A) := by
        rcases hCP with h | h <;> rw [h] <;> decide
      rw [if_neg hnA, if_pos hCP]
      have hrdn := hppar P (out.size + c1.flatten.length + 10) hs6
        (fun p hp => ⟨htabP p (hsubn2 p hp), by have := htab1 p hp; omega⟩)
      rw [← hWal.1] at hrdn
      rw [hrdn, ok_bind]
      refine ⟨mkRecord r.name r.type
          (readU16 P (out.size + c1.flatten.length + 2))
          ((readI32 P (out.size + c1.flatten.length + 4)) : ℚ) pnow
          (RData.pointer al), rfl, ?_⟩
      simp only [Except.ok.injEq, Prod.mk.injEq]
      refine ⟨trivial, ?_⟩
      rw [hflen]
      omega
  | service sp sw spt srv =>
    rw [hrd] at hcoh
    simp only [rdCoh] at hcoh
    obtain ⟨hSRV, hsp, hsw, hspt, hWsrv, hnesrv⟩ := hcoh
    have h3srv : 3 ≤ nameLen srv := plainEnc_length_ge _ hnesrv hWsrv.2
    have hrdl : rdataLen r.rdata = 6 + nameLen srv := by
      rw [hrd]
      simp [rdataLen]
    obtain ⟨ncp, n2f, hwp, hge2p, hlep, hbrp, hppar⟩ :=
      write_name_payload names1 srv hWsrv hnesrv (fun p hp => (htab1 p hp).1)
    have hpay : ∀ o : DNSOutgoing, o.names = names1 →
        recWrite o r = Except.ok { o with
          names := n2f (o.size + 6)
          data := o.data ++ ([shortBytes sp, shortBytes sw, shortBytes spt] ++ ncp)
          size := o.size + (([shortBytes sp, shortBytes sw, shortBytes spt] ++
            ncp).flatten).length } := by
      intro o ho
      have hmatch : recWrite o r = (write_short o sp >>= fun o1 =>
          write_short o1 sw >>= fun o2 =>
            write_short o2 spt >>= fun o3 => write_name o3 srv) := by
        unfold recWrite
        rw [hrd]
      rw [hmatch, write_short_ok _ _ hsp, ok_bind, write_short_ok _ _ hsw,
        ok_bind, write_short_ok _ _ hspt, ok_bind]
      refine (hwp _ ?_).trans ?_
      · exact ho
      · refine congrArg Except.ok
          (DNSOutgoing.ext ?_ ?_ ?_ ?_ ?_ ?_ ?_ ?_ ?_ ?_ ?_) <;> dsimp only
        all_goals first
          | rfl
          | (congr 1
             omega)
          | (simp [shortBytes]
             try omega)
    have hcpflen : (([shortBytes sp, shortBytes sw, shortBytes spt] ++
        ncp).flatten).length = 6 + ncp.flatten.length := by
      simp [shortBytes]
      omega
    have hnp : (([shortBytes sp, shortBytes sw, shortBytes spt] ++
        ncp).flatten).length < 65536 := by
      rw [hcpflen]
      rw [hrlen, hrdl] at hsz
      omega
    have hW := write_record_eq out r t c1
      ([shortBytes sp, shortBytes sw, shortBytes spt] ++ ncp) names1
      (fun s => n2f (s + 6)) hwn htype hcvlt ⟨httl0, httl1⟩ hpay hnp
    have hflen : ((c1 ++ [shortBytes r.type,
        shortBytes (if r.unique ∧ out.multicast = true then
          r.class_ ||| CLASS_UNIQUE else r.class_),
        intBytes (pyTrunc (ttlWritten r t)).toNat,
        shortBytes (([shortBytes sp, shortBytes sw, shortBytes spt] ++
          ncp).flatten).length] ++
        ([shortBytes sp, shortBytes sw, shortBytes spt] ++ ncp)).flatten).length =
        c1.flatten.length + 16 + ncp.flatten.length := by
      simp [shortBytes, intBytes]
      omega
    have hflat : ((c1 ++ [shortBytes r.type,
        shortBytes (if r.unique ∧ out.multicast = true then
          r.class_ ||| CLASS_UNIQUE else r.class_),
        intBytes (pyTrunc (ttlWritten r t)).toNat,
        shortBytes (([shortBytes sp, shortBytes sw, shortBytes spt] ++
          ncp).flatten).length] ++
        ([shortBytes sp, shortBytes sw, shortBytes spt] ++ ncp)).flatten) =
        c1.flatten ++ (shortBytes r.type ++
          (shortBytes (if r.unique ∧ out.multicast = true then
            r.class_ ||| CLASS_UNIQUE else r.class_) ++
          (intBytes (pyTrunc (ttlWritten r t)).toNat ++
          (shortBytes (([shortBytes sp, shortBytes sw, shortBytes spt] ++
            ncp).flatten).length ++
          (shortBytes sp ++ (shortBytes sw ++ (shortBytes spt ++
            ncp.flatten))))))) := by
      simp
    refine ⟨_, n2f (out.size + c1.flatten.length + 10 + 6), hW, ?_, ?_, ?_,
      ?_, ?_⟩
    · rw [hflen, hrlen, hrdl]
      omega
    · intro p hp
      rcases hbrp with hb | ⟨hb, _⟩
      · rw [hb]
        exact hsubn p hp
      · rw [hb]
        exact List.mem_cons_of_mem _ (hsubn p hp)
    · intro p hp
      rcases hbrp with hb | ⟨hb, _⟩
      · rw [hb] at hp
        have := htab1 p hp
        rw [hflen]
        omega
      · rw [hb] at hp
        rcases List.mem_cons.mp hp with h1 | h2
        · rw [h1]
          rw [hrlen, hrdl] at hsz
          rw [hflen]
          constructor <;> omega
        · have := htab1 p h2
          rw [hflen]
          omega
    · intro p hp
      have hinner : ∀ hfl : ncp.flatten = plainEnc (nameParts srv),
          SliceAt ((c1 ++ [shortBytes r.type,
            shortBytes (if r.unique ∧ out.multicast = true then
              r.class_ ||| CLASS_UNIQUE else r.class_),
            intBytes (pyTrunc (ttlWritten r t)).toNat,
            shortBytes (([shortBytes sp, shortBytes sw, shortBytes spt] ++
              ncp).flatten).length] ++
            ([shortBytes sp, shortBytes sw, shortBytes spt] ++ ncp)).flatten)
            (out.size + c1.flatten.length + 10 + 6 - out.size)
            (plainEnc (nameParts srv)) := by
        intro hfl
        have hb0 : SliceAt ncp.flatten 0 (plainEnc (nameParts srv)) := by
          rw [hfl]
          exact sliceAt_refl _
        have ha1 := sliceAt_after (shortBytes spt) _ _ _ hb0
        have ha2 := sliceAt_after (shortBytes sw) _ _ _ ha1
        have ha3 := sliceAt_after (shortBytes sp) _ _ _ ha2
        have ha4 := sliceAt_after
          (shortBytes (([shortBytes sp, shortBytes sw, shortBytes spt] ++
            ncp).flatten).length) _ _ _ ha3
        have ha5 := sliceAt_after
          (intBytes (pyTrunc (ttlWritten r t)).toNat) _ _ _ ha4
        have ha6 := sliceAt_after
          (shortBytes (if r.unique ∧ out.multicast = true then
            r.class_ ||| CLASS_UNIQUE else r.class_)) _ _ _ ha5
        have ha7 := sliceAt_after (shortBytes r.type) _ _ _ ha6
        have ha8 := sliceAt_after c1.flatten _ _ _ ha7
        rw [← hflat] at ha8
        rw [show c1.flatten.length + ((shortBytes r.type).length +
          ((shortBytes (if r.unique ∧ out.multicast = true then
            r.class_ ||| CLASS_UNIQUE else r.class_)).length +
          ((intBytes (pyTrunc (ttlWritten r t)).toNat).length +
          ((shortBytes (([shortBytes sp, shortBytes sw, shortBytes spt] ++
            ncp).flatten).length).length +
          ((shortBytes sp).length + ((shortBytes sw).length +
          ((shortBytes spt).length + 0))))))) =
          c1.flatten.length + 16 from by simp [shortBytes, intBytes]] at ha8
        rw [show out.size + c1.flatten.length + 10 + 6 - out.size =
          c1.flatten.length + 16 from by omega]
        exact ha8
      rcases hbrp with hb | ⟨hb, hfl⟩
      · rw [hb] at hp
        rcases hbr1 with hb1 | ⟨hb1, hc1pl⟩
        · rw [hb1] at hp
          exact Or.inl hp
        · rw [hb1] at hp
          rcases List.mem_cons.mp hp with h1 | h2
          · refine Or.inr ?_
            rw [h1]
            refine ⟨hWn, hne, Nat.le_refl _, ?_⟩
            rw [hflat]
            exact htopAligned _ hb1 hc1pl
          · exact Or.inl h2
      · rw [hb] at hp
        rcases List.mem_cons.mp hp with h1 | h2
        · refine Or.inr ?_
          rw [h1]
          refine ⟨hWsrv, hnesrv, by omega, hinner hfl⟩
        · rcases hbr1 with hb1 | ⟨hb1, hc1pl⟩
          · rw [hb1] at h2
            exact Or.inl h2
          · rw [hb1] at h2
            rcases List.mem_cons.mp h2 with h21 | h22
            · refine Or.inr ?_
              rw [h21]
              refine ⟨hWn, hne, Nat.le_refl _, ?_⟩
              rw [hflat]
              exact htopAligned _ hb1 hc1pl
            · exact Or.inl h22
    · intro P hsP htabP
      have hsubn2 : ∀ p ∈ names1,
          p ∈ n2f (out.size + c1.flatten.length + 10 + 6) := by
        intro p hp
        rcases hbrp with hb | ⟨hb, _⟩
        · rw [hb]
          exact hp
        · rw [hb]
          exact List.mem_cons_of_mem _ hp
      rw [hflat] at hsP
      obtain ⟨hs1, hst, hsc, hsi, hs5, hs6⟩ := record_slices P out.size
        c1.flatten (shortBytes r.type) _ _ _
        (shortBytes sp ++ (shortBytes sw ++ (shortBytes spt ++ ncp.flatten)))
        hsP rfl rfl rfl rfl
      rw [sliceAt_append] at hs6
      obtain ⟨hs6a, hs6⟩ := hs6
      rw [show (shortBytes sp).length = 2 from rfl, sliceAt_append] at hs6
      obtain ⟨hs6b, hs6⟩ := hs6
      rw [show (shortBytes sw).length = 2 from rfl, sliceAt_append] at hs6
      obtain ⟨hs6c, hs6d⟩ := hs6
      rw [show (shortBytes spt).length = 2 from rfl] at hs6d
      have hrn := hparse1 P hs1 (fun p hp => htabP p (hsubn2 p (hsubn p hp)))
      rw [← hWn.1] at hrn
      have hbound : out.size + c1.flatten.length + 10 ≤ P.length := by
        have h := sliceAt_le P _ _ (by simp [shortBytes]) hs5
        simp only [shortBytes, List.length_cons, List.length_nil] at h
        omega
      have hunp := unpackHHiH_at P (out.size + c1.flatten.length) r.type
        ((([shortBytes sp, shortBytes sw, shortBytes spt] ++
          ncp).flatten).length) hst hs5 hbound
      rw [readRecord, hrn, ok_bind]
      dsimp only
      rw [hunp, ok_bind]
      dsimp only
      rw [if_neg (by rw [hSRV]; decide), if_neg (by rw [hSRV]; decide),
        if_neg (by rw [hSRV]; decide), if_pos hSRV]
      rw [read_unsigned_short_at P _ sp hs6a, ok_bind]
      dsimp only
      rw [show out.size + c1.flatten.length + 10 + 2 =
        out.size + c1.flatten.length + 10 + 2 from rfl,
        read_unsigned_short_at P _ sw hs6b, ok_bind]
      dsimp only
      rw [read_unsigned_short_at P _ spt (by
        rw [show out.size + c1.flatten.length + 10 + 2 + 2 =
          out.size + c1.flatten.length + 10 + 2 + 2 from rfl]
        exact hs6c), ok_bind]
      dsimp only
      have hrdn := hppar P (out.size + c1.flatten.length + 10 + 2 + 2 + 2)
        (by
          rw [show out.size + c1.flatten.length + 10 + 2 + 2 + 2 =
            out.size + c1.flatten.length + 10 + 2 + 2 + 2 from rfl]
          exact hs6d)
        (fun p hp => ⟨htabP p (hsubn2 p hp), by have := htab1 p hp; omega⟩)
      rw [← hWsrv.1] at hrdn
      rw [hrdn, ok_bind]
      refine ⟨mkRecord r.name r.type
          (readU16 P (out.size + c1.flatten.length + 2))
          ((readI32 P (out.size + c1.flatten.length + 4)) : ℚ) pnow
          (RData.service sp sw spt srv), rfl, ?_⟩
      simp only [Except.ok.injEq, Prod.mk.injEq]
      refine ⟨trivial, ?_⟩
      rw [hflen]
      omega

theorem qsLen_ge (qs : List DNSQuestion) : qs.length ≤ qsLen qs := by
  induction qs with
  | nil => simp [qsLen]
  | cons q rest ih =>
    have h4 : 4 ≤ qLen q := by
      unfold qLen
      omega
    show rest.length + 1 ≤ qLen q + qsLen rest
    omega

theorem asLen_ge (ans : List (DNSRecord × ℚ)) : ans.length ≤ asLen ans := by
  induction ans with
  | nil => simp [asLen]
  | cons ar rest ih =>
    have h10 : 10 ≤ rLen ar.1 := by
      unfold rLen
      omega
    show rest.length + 1 ≤ rLen ar.1 + asLen rest
    omega

theorem questionEq_mk (q : DNSQuestion) (h : WFQuestion q) :
    questionEq (mkQuestion q.name q.type q.class_) q = true := by
  unfold questionEq mkQuestion
  have hmask : q.class_ &&& CLASS_MASK = q.class_ := by
    have h1 := Nat.and_pow_two_sub_one_eq_mod q.class_ 15
    norm_num at h1
    rw [show CLASS_MASK = 32767 from rfl, h1]
    exact Nat.mod_eq_of_lt h.2.2.2
  simp [hmask]

/-- Writing the answer section appends bytes from which the record loop
re-reads, one record per answer, records carrying the written payloads. -/
theorem write_records_fold (ans : List (DNSRecord × ℚ)) (out : DNSOutgoing)
    (pnow : ℚ)
    (hwf : ∀ ar ∈ ans, WFAnswer ar)
    (htab : TableSmall out.names out.size)
    (hsz : out.size + asLen ans ≤ 16384) :
    ∃ (chunks : List PyBytes) (names2 : List (PyStr × Nat)),
      ans.foldlM (fun o ar => write_record o ar.1 ar.2) out =
        Except.ok { out with
          names := names2
          data := out.data ++ chunks
          size := out.size + chunks.flatten.length } ∧
      chunks.flatten.length ≤ asLen ans ∧
      (∀ p ∈ out.names, p ∈ names2) ∧
      TableSmall names2 (out.size + chunks.flatten.length) ∧
      NewAligned out.size out.names names2 chunks.flatten ∧
      (∀ (P : PyBytes) (acc : List DNSRecord),
        SliceAt P out.size chunks.flatten →
        (∀ p ∈ names2, SliceAt P p.2 (plainEnc (nameParts p.1))) →
        ∃ parsed : List DNSRecord,
          read_others_loop P pnow ans.length out.size acc =
            Except.ok (acc ++ parsed, out.size + chunks.flatten.length) ∧
          List.Forall₂ (fun rec ar => rec.rdata = ar.1.rdata) parsed ans) := by
  induction ans generalizing out with
  | nil =>
    refine ⟨[], out.names, ?_, by simp [asLen], fun p hp => hp, ?_, ?_, ?_⟩
    · show Except.ok out = _
      refine congrArg Except.ok
        (DNSOutgoing.ext ?_ ?_ ?_ ?_ ?_ ?_ ?_ ?_ ?_ ?_ ?_) <;> dsimp only
      all_goals simp
    · intro p hp
      have := htab p hp
      simp
      omega
    · intro p hp
      exact Or.inl hp
    · intro P acc _ _
      refine ⟨[], ?_, List.Forall₂.nil⟩
      show Except.ok (acc, out.size) = _
      simp
  | cons ar rest ih =>
    have har : WFAnswer ar := hwf ar (List.mem_cons_self ar rest)
    have hrest : ∀ x ∈ rest, WFAnswer x := fun x hx =>
      hwf x (List.mem_cons_of_mem ar hx)
    have hasz : asLen (ar :: rest) = rLen ar.1 + asLen rest := rfl
    obtain ⟨c1, names1, hstep, hc1len, hsub1, htab1, hal1, hp1⟩ :=
      write_record_spec out ar.1 ar.2 pnow (by
        obtain ⟨x, y⟩ := ar
        exact har) htab (by omega)
    obtain ⟨c2, names2, hfold, hc2len, hsub2, htab2, hal2, hp2⟩ :=
      ih { out with
          names := names1
          data := out.data ++ c1
          size := out.size + c1.flatten.length } hrest htab1
        (by
          show out.size + c1.flatten.length + asLen rest ≤ 16384
          omega)
    refine ⟨c1 ++ c2, names2, ?_, ?_, ?_, ?_, ?_, ?_⟩
    · rw [List.foldlM_cons, hstep, ok_bind, hfold]
      refine congrArg Except.ok
        (DNSOutgoing.ext ?_ ?_ ?_ ?_ ?_ ?_ ?_ ?_ ?_ ?_ ?_) <;> dsimp only
      all_goals first
        | rfl
        | (simp
           try omega)
    · have hf : (c1 ++ c2).flatten.length =
          c1.flatten.length + c2.flatten.length := by
        simp
      rw [hasz, hf]
      omega
    · intro p hp
      exact hsub2 p (hsub1 p hp)
    · intro p hp
      have := htab2 p hp
      simp at this ⊢
      omega
    · intro p hp
      rcases hal2 p hp with hin1 | ⟨hw, hn, hbase, hs⟩
      · rcases hal1 p hin1 with hin0 | ⟨hw, hn, hbase, hs⟩
        · exact Or.inl hin0
        · refine Or.inr ⟨hw, hn, hbase, ?_⟩
          rw [show (c1 ++ c2).flatten = c1.flatten ++ c2.flatten from by simp]
          exact sliceAt_extend _ _ _ _ hs
      · have hbase2 : out.size + c1.flatten.length ≤ p.2 := hbase
        have hs2 : SliceAt c2.flatten (p.2 - (out.size + c1.flatten.length))
            (plainEnc (nameParts p.1)) := hs
        refine Or.inr ⟨hw, hn, by omega, ?_⟩
        rw [show (c1 ++ c2).flatten = c1.flatten ++ c2.flatten from by simp]
        rw [show p.2 - out.size =
          c1.flatten.length + (p.2 - (out.size + c1.flatten.length)) from by
            omega]
        rw [sliceAt_shift]
        exact hs2
    · intro P acc hsP htabP
      rw [show (c1 ++ c2).flatten = c1.flatten ++ c2.flatten from by simp]
        at hsP
      rw [sliceAt_append] at hsP
      obtain ⟨hsc1, hsc2⟩ := hsP
      have htabP1 : ∀ p ∈ names1, SliceAt P p.2 (plainEnc (nameParts p.1)) :=
        fun p hp => htabP p (hsub2 p hp)
      obtain ⟨rec, hrdata, hread⟩ := hp1 P hsc1 htabP1
      obtain ⟨parsed, hloop, hf2⟩ := hp2 P (acc ++ [rec]) hsc2 htabP
      refine ⟨rec :: parsed, ?_, List.Forall₂.cons hrdata hf2⟩
      show read_others_loop P pnow (rest.length + 1) out.size acc = _
      rw [read_others_loop_succ, hread, ok_bind]
      dsimp only
      rw [hloop]
      simp only [Except.ok.injEq, Prod.mk.injEq]
      constructor
      · simp
      · simp
        omega

attribute [ext] DNSIncoming

theorem pure_bind_except {α β : Type} (a : α) (f : α → Except PyErr β) :
    (pure a >>= f : Except PyErr β) = f a := rfl

theorem forall2_questionEq (qs : List DNSQuestion)
    (h : ∀ q ∈ qs, WFQuestion q) :
    List.Forall₂ (fun pq q => questionEq pq q = true)
      (qs.map fun q => mkQuestion q.name q.type q.class_) qs := by
  induction qs with
  | nil => exact List.Forall₂.nil
  | cons q rest ih =>
    exact List.Forall₂.cons
      (questionEq_mk q (h q (List.mem_cons_self q rest)))
      (ih fun x hx => h x (List.mem_cons_of_mem q hx))

/-- C1.  For every well-formed outgoing message (fresh state, canonical
names, in-range fields, no authorities or additionals, total
uncompressed size within the 16384-byte compression-pointer range),
`packet()` succeeds and `DNSIncoming` parses the bytes back into a
message with the same question and answer counts whose questions and
answers compare equal (`==`) to the originals pairwise. -/
theorem claim_C1_roundtrip (out : DNSOutgoing) (pnow : ℚ)
    (hfin : out.finished = false)
    (hdata : out.data = []) (hsize : out.size = 12)
    (hnames : out.names = [])
    (hauth : out.authorities = []) (haddl : out.additionals = [])
    (hid : out.id < 65536) (hflags : out.flags < 65536)
    (hq : ∀ q ∈ out.questions, WFQuestion q)
    (ha : ∀ ar ∈ out.answers, WFAnswer ar)
    (hsz : 12 + qsLen out.questions + asLen out.answers ≤ 16384) :
    ∃ (P : PyBytes) (inc : DNSIncoming),
      packet out = Except.ok P ∧
      DNSIncoming_read P pnow = Except.ok inc ∧
      inc.questions.length = out.questions.length ∧
      inc.answers.length = out.answers.length ∧
      List.Forall₂ (fun pq q => questionEq pq q = true)
        inc.questions out.questions ∧
      List.Forall₂ (fun pr ar => recordEq pr ar.1 = true)
        inc.answers out.answers := by
  have htab0 : TableSmall out.names out.size := by
    intro p hp
    rw [hnames] at hp
    simp at hp
  have hsz1 : out.size + qsLen out.questions ≤ 16384 := by
    rw [hsize]
    omega
  obtain ⟨qc, names1, hqfold, hqlen, hqsub, hqtab, hqal, hqparse⟩ :=
    write_questions_fold out.questions out hq htab0 hsz1
  obtain ⟨ac, names2, hafold, halen, hasub, hatab, haal, haparse⟩ :=
    write_records_fold out.answers { out with
        names := names1
        data := out.data ++ qc
        size := out.size + qc.flatten.length } pnow ha hqtab (by
      show out.size + qc.flatten.length + asLen out.answers ≤ 16384
      rw [hsize]
      omega)
  dsimp only at hafold haal haparse hatab
  rw [hsize] at hqparse haparse haal
  have hnq : out.questions.length < 65536 := by
    have := qsLen_ge out.questions
    have := asLen_ge out.answers
    omega
  have hna : out.answers.length < 65536 := by
    have := qsLen_ge out.questions
    have := asLen_ge out.answers
    omega
  have hifm : ∀ o : DNSOutgoing,
      (if o.multicast then insert_short o 0 0 else insert_short o 0 o.id) =
      insert_short o 0 (if o.multicast = true then 0 else o.id) := by
    intro o
    by_cases h : o.multicast = true <;> simp [h]
  have hpk : packet out = Except.ok
      (shortBytes (if out.multicast = true then 0 else out.id) ++
        (shortBytes out.flags ++
        (shortBytes out.questions.length ++
        (shortBytes out.answers.length ++
        (shortBytes 0 ++
        (shortBytes 0 ++
        (qc.flatten ++ ac.flatten))))))) := by
    rw [packet, if_neg (by rw [hfin]; simp), hqfold, ok_bind, hafold,
      ok_bind, hauth, List.foldlM_nil, pure_bind_except, haddl,
      List.foldlM_nil, pure_bind_except]
    rw [insert_short, if_pos (by simp [haddl]), ok_bind,
      insert_short, if_pos (by simp [hauth]), ok_bind,
      insert_short, if_pos (by simpa using hna), ok_bind,
      insert_short, if_pos (by simpa using hnq), ok_bind,
      insert_short, if_pos (by simpa using hflags), ok_bind,
      hifm, insert_short, if_pos (by dsimp only; split <;> omega), ok_bind]
    refine congrArg Except.ok ?_
    simp [hdata]
  have hbody : ∀ (k : Nat) (seg : PyBytes),
      SliceAt (qc.flatten ++ ac.flatten) k seg →
      SliceAt (shortBytes (if out.multicast = true then 0 else out.id) ++
        (shortBytes out.flags ++
        (shortBytes out.questions.length ++
        (shortBytes out.answers.length ++
        (shortBytes 0 ++
        (shortBytes 0 ++
        (qc.flatten ++ ac.flatten))))))) (12 + k) seg := by
    intro k seg hsl
    have h1 := sliceAt_after (shortBytes 0) _ _ _ hsl
    have h2 := sliceAt_after (shortBytes 0) _ _ _ h1
    have h3 := sliceAt_after (shortBytes out.answers.length) _ _ _ h2
    have h4 := sliceAt_after (shortBytes out.questions.length) _ _ _ h3
    have h5 := sliceAt_after (shortBytes out.flags) _ _ _ h4
    have h6 := sliceAt_after
      (shortBytes (if out.multicast = true then 0 else out.id)) _ _ _ h5
    rw [show (shortBytes (if out.multicast = true then 0 else out.id)).length +
      ((shortBytes out.flags).length + ((shortBytes out.questions.length).length +
      ((shortBytes out.answers.length).length + ((shortBytes (0 : Nat)).length +
      ((shortBytes (0 : Nat)).length + k))))) = 12 + k from by
        simp [shortBytes]
        omega] at h6
    exact h6
  have htabP : ∀ p ∈ names2,
      SliceAt (shortBytes (if out.multicast = true then 0 else out.id) ++
        (shortBytes out.flags ++
        (shortBytes out.questions.length ++
        (shortBytes out.answers.length ++
        (shortBytes 0 ++
        (shortBytes 0 ++
        (qc.flatten ++ ac.flatten))))))) p.2 (plainEnc (nameParts p.1)) := by
    intro p hp
    rcases haal p hp with hin1 | ⟨hw, hn, hbase, hs⟩
    · rcases hqal p hin1 with hin0 | ⟨hw, hn, hbase, hs⟩
      · rw [hnames] at hin0
        simp at hin0
      · rw [hsize] at hbase hs
        have hs2 := sliceAt_extend _ ac.flatten _ _ hs
        have hs3 := hbody (p.2 - 12) _ hs2
        rw [show 12 + (p.2 - 12) = p.2 from by omega] at hs3
        exact hs3
    · have hs2 : SliceAt (qc.flatten ++ ac.flatten)
          (qc.flatten.length + (p.2 - (12 + qc.flatten.length)))
          (plainEnc (nameParts p.1)) := by
        rw [sliceAt_shift]
        exact hs
      have hs3 := hbody _ _ hs2
      rw [show 12 + (qc.flatten.length + (p.2 - (12 + qc.flatten.length))) =
        p.2 from by omega] at hs3
      exact hs3
  have hslq : SliceAt (shortBytes (if out.multicast = true then 0 else out.id) ++
      (shortBytes out.flags ++
      (shortBytes out.questions.length ++
      (shortBytes out.answers.length ++
      (shortBytes 0 ++
      (shortBytes 0 ++
      (qc.flatten ++ ac.flatten))))))) 12 qc.flatten := by
    have := hbody 0 qc.flatten (sliceAt_start _ _)
    rwa [Nat.add_zero] at this
  have hsla : SliceAt (shortBytes (if out.multicast = true then 0 else out.id) ++
      (shortBytes out.flags ++
      (shortBytes out.questions.length ++
      (shortBytes out.answers.length ++
      (shortBytes 0 ++
      (shortBytes 0 ++
      (qc.flatten ++ ac.flatten))))))) (12 + qc.flatten.length) ac.flatten := by
    refine hbody qc.flatten.length ac.flatten ?_
    have := sliceAt_after qc.flatten ac.flatten 0 ac.flatten (sliceAt_refl _)
    rwa [Nat.add_zero] at this
  obtain ⟨parsed, hloop, hf2⟩ := haparse
    (shortBytes (if out.multicast = true then 0 else out.id) ++
      (shortBytes out.flags ++
      (shortBytes out.questions.length ++
      (shortBytes out.answers.length ++
      (shortBytes 0 ++
      (shortBytes 0 ++
      (qc.flatten ++ ac.flatten))))))) [] hsla htabP
  have hqloop := hqparse
    (shortBytes (if out.multicast = true then 0 else out.id) ++
      (shortBytes out.flags ++
      (shortBytes out.questions.length ++
      (shortBytes out.answers.length ++
      (shortBytes 0 ++
      (shortBytes 0 ++
      (qc.flatten ++ ac.flatten))))))) [] hslq
    (fun p hp => htabP p (hasub p hp))
  refine ⟨_, {
      id := (if out.multicast = true then 0 else out.id)
      flags := out.flags
      num_questions := out.questions.length
      num_answers := out.answers.length
      num_authorities := 0
      num_additionals := 0
      questions := [] ++ out.questions.map
        (fun q => mkQuestion q.name q.type q.class_)
      answers := [] ++ parsed }, hpk, ?_, ?_, ?_, ?_, ?_⟩
  · have hs0 : SliceAt (shortBytes (if out.multicast = true then 0 else out.id) ++
        (shortBytes out.flags ++
        (shortBytes out.questions.length ++
        (shortBytes out.answers.length ++
        (shortBytes 0 ++
        (shortBytes 0 ++
        (qc.flatten ++ ac.flatten)))))))
        0 (shortBytes (if out.multicast = true then 0 else out.id)) :=
      sliceAt_start _ _
    have hs2 : SliceAt (shortBytes (if out.multicast = true then 0 else out.id) ++
        (shortBytes out.flags ++
        (shortBytes out.questions.length ++
        (shortBytes out.answers.length ++
        (shortBytes 0 ++
        (shortBytes 0 ++
        (qc.flatten ++ ac.flatten))))))) 2 (shortBytes out.flags) := by
      have h := sliceAt_after
        (shortBytes (if out.multicast = true then 0 else out.id)) _ _ _
        (sliceAt_start (shortBytes out.flags)
          (shortBytes out.questions.length ++
          (shortBytes out.answers.length ++
          (shortBytes 0 ++
          (shortBytes 0 ++
          (qc.flatten ++ ac.flatten))))))
      rwa [show (shortBytes (if out.multicast = true then 0 else
        out.id)).length + 0 = 2 from by simp [shortBytes]] at h
    have hs4 : SliceAt (shortBytes (if out.multicast = true then 0 else out.id) ++
        (shortBytes out.flags ++
        (shortBytes out.questions.length ++
        (shortBytes out.answers.length ++
        (shortBytes 0 ++
        (shortBytes 0 ++
        (qc.flatten ++ ac.flatten))))))) 4 (shortBytes out.questions.length) := by
      have h0 := sliceAt_start (shortBytes out.questions.length)
        (shortBytes out.answers.length ++
        (shortBytes 0 ++ (shortBytes 0 ++ (qc.flatten ++ ac.flatten))))
      have h1 := sliceAt_after (shortBytes out.flags) _ _ _ h0
      have h2 := sliceAt_after
        (shortBytes (if out.multicast = true then 0 else out.id)) _ _ _ h1
      rwa [show (shortBytes (if out.multicast = true then 0 else
        out.id)).length + ((shortBytes out.flags).length + 0) = 4 from by
          simp [shortBytes]] at h2
    have hs6 : SliceAt (shortBytes (if out.multicast = true then 0 else out.id) ++
        (shortBytes out.flags ++
        (shortBytes out.questions.length ++
        (shortBytes out.answers.length ++
        (shortBytes 0 ++
        (shortBytes 0 ++
        (qc.flatten ++ ac.flatten))))))) 6 (shortBytes out.answers.length) := by
      have h0 := sliceAt_start (shortBytes out.answers.length)
        (shortBytes 0 ++ (shortBytes 0 ++ (qc.flatten ++ ac.flatten)))
      have h1 := sliceAt_after (shortBytes out.questions.length) _ _ _ h0
      have h2 := sliceAt_after (shortBytes out.flags) _ _ _ h1
      have h3 := sliceAt_after
        (shortBytes (if out.multicast = true then 0 else out.id)) _ _ _ h2
      rwa [show (shortBytes (if out.multicast = true then 0 else
        out.id)).length + ((shortBytes out.flags).length +
        ((shortBytes out.questions.length).length + 0)) = 6 from by
          simp [shortBytes]] at h3
    have hs8 : SliceAt (shortBytes (if out.multicast = true then 0 else out.id) ++
        (shortBytes out.flags ++
        (shortBytes out.questions.length ++
        (shortBytes out.answers.length ++
        (shortBytes 0 ++
        (shortBytes 0 ++
        (qc.flatten ++ ac.flatten))))))) 8 (shortBytes (0 : Nat)) := by
      have h0 := sliceAt_start (shortBytes (0 : Nat))
        (shortBytes 0 ++ (qc.flatten ++ ac.flatten))
      have h1 := sliceAt_after (shortBytes out.answers.length) _ _ _ h0
      have h2 := sliceAt_after (shortBytes out.questions.length) _ _ _ h1
      have h3 := sliceAt_after (shortBytes out.flags) _ _ _ h2
      have h4 := sliceAt_after
        (shortBytes (if out.multicast = true then 0 else out.id)) _ _ _ h3
      rwa [show (shortBytes (if out.multicast = true then 0 else
        out.id)).length + ((shortBytes out.flags).length +
        ((shortBytes out.questions.length).length +
        ((shortBytes out.answers.length).length + 0))) = 8 from by
          simp [shortBytes]] at h4
    have hs10 : SliceAt (shortBytes (if out.multicast = true then 0 else out.id) ++
        (shortBytes out.flags ++
        (shortBytes out.questions.length ++
        (shortBytes out.answers.length ++
        (shortBytes 0 ++
        (shortBytes 0 ++
        (qc.flatten ++ ac.flatten))))))) 10 (shortBytes (0 : Nat)) := by
      have h0 := sliceAt_start (shortBytes (0 : Nat))
        (qc.flatten ++ ac.flatten)
      have h1 := sliceAt_after (shortBytes (0 : Nat)) _ _ _ h0
      have h2 := sliceAt_after (shortBytes out.answers.length) _ _ _ h1
      have h3 := sliceAt_after (shortBytes out.questions.length) _ _ _ h2
      have h4 := sliceAt_after (shortBytes out.flags) _ _ _ h3
      have h5 := sliceAt_after
        (shortBytes (if out.multicast = true then 0 else out.id)) _ _ _ h4
      rwa [show (shortBytes (if out.multicast = true then 0 else
        out.id)).length + ((shortBytes out.flags).length +
        ((shortBytes out.questions.length).length +
        ((shortBytes out.answers.length).length +
        ((shortBytes (0 : Nat)).length + 0)))) = 10 from by
          simp [shortBytes]] at h5
    have hlen12 : 0 + 12 ≤
        (shortBytes (if out.multicast = true then 0 else out.id) ++
        (shortBytes out.flags ++
        (shortBytes out.questions.length ++
        (shortBytes out.answers.length ++
        (shortBytes 0 ++
        (shortBytes 0 ++
        (qc.flatten ++ ac.flatten))))))).length := by
      have := sliceAt_le _ 10 _ (by simp [shortBytes]) hs10
      simp only [shortBytes, List.length_append, List.length_cons,
        List.length_nil] at this ⊢
      omega
    have hu6 : unpack6H
        (shortBytes (if out.multicast = true then 0 else out.id) ++
        (shortBytes out.flags ++
        (shortBytes out.questions.length ++
        (shortBytes out.answers.length ++
        (shortBytes 0 ++
        (shortBytes 0 ++
        (qc.flatten ++ ac.flatten))))))) 0 =
        Except.ok ((if out.multicast = true then 0 else out.id), out.flags,
          out.questions.length, out.answers.length, 0, 0, 12) := by
      rw [unpack6H, if_pos hlen12]
      simp only [Nat.zero_add]
      rw [readU16_shortBytes _ 0 _ hs0, readU16_shortBytes _ 2 _ hs2,
        readU16_shortBytes _ 4 _ hs4, readU16_shortBytes _ 6 _ hs6,
        readU16_shortBytes _ 8 _ hs8, readU16_shortBytes _ 10 _ hs10]
    rw [DNSIncoming_read, hu6, ok_bind]
    dsimp only
    rw [hqloop, ok_bind]
    dsimp only
    rw [show out.answers.length + 0 + 0 = out.answers.length from by omega,
      hloop, ok_bind]
  · simp
  · have := List.Forall₂.length_eq hf2
    simpa using this
  · simp only [List.nil_append]
    exact forall2_questionEq out.questions hq
  · simp only [List.nil_append]
    refine List.Forall₂.imp ?_ hf2
    intro a b h
    exact (recordEq_iff a b.1).mpr h

instance (ar : DNSRecord × ℚ) : Decidable (WFAnswer ar) := by
  unfold WFAnswer
  infer_instance

/-- A concrete outgoing response: one PTR-style question and one A
record for the name `a.`. -/
def sampleOutgoing : DNSOutgoing :=
  { finished := false
    id := 0
    multicast := true
    flags := 0x8400
    names := []
    data := []
    size := 12
    questions := [mkQuestion [0x61, 0x2E] TYPE_PTR CLASS_IN]
    answers := [(mkRecord [0x61, 0x2E] TYPE_A CLASS_IN 1 0
      (RData.address [1, 2, 3, 4]), 0)]
    authorities := []
    additionals := [] }

/-- C1 witness: the round trip at a concrete one-question, one-answer
response message. -/
theorem claim_C1_roundtrip_witness :
    ∃ (P : PyBytes) (inc : DNSIncoming),
      packet sampleOutgoing = Except.ok P ∧
      DNSIncoming_read P 0 = Except.ok inc ∧
      inc.questions.length = sampleOutgoing.questions.length ∧
      inc.answers.length = sampleOutgoing.answers.length ∧
      List.Forall₂ (fun pq q => questionEq pq q = true)
        inc.questions sampleOutgoing.questions ∧
      List.Forall₂ (fun pr ar => recordEq pr ar.1 = true)
        inc.answers sampleOutgoing.answers :=
  claim_C1_roundtrip sampleOutgoing 0 rfl rfl rfl rfl rfl rfl
    (by decide) (by decide) (by decide) (by decide) (by decide)
